import Mathlib

/-!
# Verification of the async-iterators core

Shallow embedding of `src/lib/asyncIterator.js` and the first (current)
section of `src/lib/iteratorFunctions.js`:

* `JsValue` models the JavaScript values the library manipulates,
  including promises.  A promise is modelled by its virtual resolution
  delay (a number of scheduler ticks) together with the value it
  eventually resolves to (`promiseRes`) or the reason it rejects with
  (`promiseRej`).
* `ObjData` / `Heap` model mutable arrays and plain objects; `JsValue.ref`
  is a reference into the heap, so object identity and in-place mutation
  are observable.
* `asyncIteratorOf` / `iterNext` model the `asyncIterator` adapter
  (dispatch on `this.entries` / `typeof this === 'object'` / scalar, the
  `Promise.all` resolution of pair components, and `singleValueIterator`).
* `iterate` models the driving loop, threading a virtual clock: the
  `setImmediate` yield costs one tick and every promise resolution costs
  its delay.  Every callback invocation is recorded in a trace
  (invocation time, settle time, key/value arguments, settled result).
* `forEach`, `map`, `reduce`, `transform` are the four public operations,
  translated clause by clause from `iteratorFunctions.js`.

Step callbacks are modelled as Lean functions that receive their closure
state, the visible arguments and the current heap, and return the updated
closure state, the updated heap (callbacks may mutate objects) and either
a synchronously thrown error (`Except.error`) or a returned value
(`Except.ok`, possibly a promise).
-/

namespace AsyncIterators

/-- A JavaScript value.  `promiseRes d v` is a promise that resolves to
`v` after `d` scheduler ticks; `promiseRej d e` rejects with reason `e`
after `d` ticks.  `ref r` is a reference to a heap object. -/
inductive JsValue : Type where
  | undefined
  | null
  | bool (b : Bool)
  | num (n : Int)
  | nan
  | str (s : String)
  | ref (r : Nat)
  | promiseRes (delay : Nat) (v : JsValue)
  | promiseRej (delay : Nat) (e : JsValue)
  deriving Repr, DecidableEq

/-- A heap object: either an array or a plain object (ordered own
properties, as enumerated by `Object.getOwnPropertyNames`). -/
inductive ObjData : Type where
  | arr (elems : List JsValue)
  | objd (props : List (String × JsValue))
  deriving Repr, DecidableEq

/-- The heap: addresses are list positions, allocation appends. -/
abbrev Heap := List ObjData

/-- JavaScript truthiness of a value. -/
def jsTruthy : JsValue → Bool
  | .undefined => false
  | .null => false
  | .bool b => b
  | .num n => n != 0
  | .nan => false
  | .str s => !s.isEmpty
  | .ref _ => true
  | .promiseRes _ _ => true
  | .promiseRej _ _ => true

/-- `x instanceof Promise`. -/
def isPromiseVal : JsValue → Bool
  | .promiseRes _ _ => true
  | .promiseRej _ _ => true
  | _ => false

/-- Fully resolve a (possibly nested) promise: total virtual delay and
the settled outcome.  Promise chaining (`then`, `Promise.all`) flattens
nested promises, hence the recursion; a non-promise settles immediately
as itself. -/
def resolveVal : JsValue → Nat × Except JsValue JsValue
  | .promiseRes d v => let r := resolveVal v; (d + r.1, r.2)
  | .promiseRej d e => (d, .error e)
  | .undefined => (0, .ok .undefined)
  | .null => (0, .ok .null)
  | .bool b => (0, .ok (.bool b))
  | .num n => (0, .ok (.num n))
  | .nan => (0, .ok .nan)
  | .str s => (0, .ok (.str s))
  | .ref r => (0, .ok (.ref r))

/-- The settled value of `x`, or `undefined` if `x` rejects. -/
def resolveD (x : JsValue) : JsValue :=
  match (resolveVal x).2 with
  | .ok w => w
  | .error _ => .undefined

/-- Whether `x` settles successfully. -/
def resolvesOk (x : JsValue) : Bool :=
  match (resolveVal x).2 with
  | .ok _ => true
  | .error _ => false

/-- Internal cursor of an adapter-produced iterator (`asyncIterator`):
the `entries()` branch over an array keeps an index, the plain-object
branch keeps the `Object.getOwnPropertyNames` snapshot taken at iterator
creation, and `singleValueIterator` keeps its `done` flag. -/
inductive IterState : Type where
  | arrIter (r : Nat) (idx : Nat)
  | objIter (keys : List String) (r : Nat)
  | singleIter (v : JsValue) (used : Bool)
  deriving Repr, DecidableEq

/-- Settled result of one `iter.next()` call:
`done d` is `{done: true}` after `d` ticks of promise resolution;
`pairRes d k v` is `{value: [k, v], done: false}`;
`noPair d` is `{value: undefined, done: false}` (a falsy `value`, which
happens for an own property named `""`, because of
`key.value ? this[key.value] : undefined` and
`result[0] ? [result[0], result[1]] : undefined`);
`rejectedNext d e` means the promise returned by `next()` rejects. -/
inductive NextRes : Type where
  | done (delay : Nat)
  | pairRes (delay : Nat) (key val : JsValue)
  | noPair (delay : Nat)
  | rejectedNext (delay : Nat) (e : JsValue)
  deriving Repr, DecidableEq

/-- `asyncIterator.call(obj)`: dispatch on the source shape.
Arrays have a callable `entries`; other non-null objects fall into the
`typeof this === 'object'` branch, enumerating own property names
(a Promise instance has no own property names, giving an empty
enumeration); everything else goes to `singleValueIterator`.
`null`/`undefined` never reach this point: `iterate` already throws on
its first property access (see `iterate`). -/
def asyncIteratorOf (h : Heap) (obj : JsValue) : IterState :=
  match obj with
  | .ref r =>
    match h.get? r with
    | some (.arr _) => .arrIter r 0
    | some (.objd props) => .objIter (props.map Prod.fst) r
    | none => .objIter [] r
  | .promiseRes _ _ => .objIter [] 0
  | .promiseRej _ _ => .objIter [] 0
  | v => .singleIter v false

/-- One `iter.next()` call.  The array branch reads the current heap (the
`entries()` iterator is live) and applies `Promise.all` to the produced
`[index, element]` pair, resolving a deferred element; the object branch
reads `this[key]` from the current heap and applies `Promise.all` to
`[key, value, done]`; `singleValueIterator` yields `[undefined, value]`
once (without resolving the value) and then `done`. -/
def iterNext (h : Heap) : IterState → IterState × NextRes
  | .arrIter r i =>
    match h.get? r with
    | some (.arr elems) =>
      match elems.get? i with
      | some e =>
        let res := resolveVal e
        match res.2 with
        | .ok w => (.arrIter r (i + 1), .pairRes res.1 (.num (Int.ofNat i)) w)
        | .error err => (.arrIter r (i + 1), .rejectedNext res.1 err)
      | none => (.arrIter r i, .done 0)
    | _ => (.arrIter r i, .done 0)
  | .objIter [] r => (.objIter [] r, .done 0)
  | .objIter (k :: rest) r =>
    -- `const value = key.value ? this[key.value] : undefined`
    let value : JsValue :=
      if k = "" then .undefined
      else
        match h.get? r with
        | some (.objd props) => (props.lookup k).getD .undefined
        | _ => .undefined
    let res := resolveVal value
    match res.2 with
    | .ok w =>
      -- `value: result[0] ? [result[0], result[1]] : undefined`
      if k = "" then (.objIter rest r, .noPair res.1)
      else (.objIter rest r, .pairRes res.1 (.str k) w)
    | .error err => (.objIter rest r, .rejectedNext res.1 err)
  | .singleIter v true => (.singleIter v true, .done 0)
  | .singleIter v false => (.singleIter v true, .pairRes 0 .undefined v)

instance : DecidableEq (Except JsValue JsValue) := fun
  | .ok a, .ok b =>
    if h : a = b then .isTrue (by rw [h]) else .isFalse (by simp [h])
  | .ok _, .error _ => .isFalse (by simp)
  | .error _, .ok _ => .isFalse (by simp)
  | .error a, .error b =>
    if h : a = b then .isTrue (by rw [h]) else .isFalse (by simp [h])

/-- One recorded step-callback invocation: invocation time, time at which
its result had fully settled, the `val`/`key` arguments it received, and
the settled result (`Except.error` if the callback threw synchronously or
its returned promise rejected). -/
structure CallRecord : Type where
  tCall : Nat
  tSettle : Nat
  key : JsValue
  val : JsValue
  res : Except JsValue JsValue
  deriving Repr, DecidableEq

/-- How the promise returned by `iterate` ends up:
`resolved`/`rejected` are the two settled states; `hung` means the
promise never settles (this happens when `iter.next()` rejects: the
`iter.next().then(result => ...)` chain in `iterate` has no rejection
handler, so neither `resolve` nor `reject` is ever called); `fuelOut` is
a model artifact meaning the recursion bound was exhausted while the real
loop would have continued. -/
inductive Outcome : Type where
  | resolved (v : JsValue)
  | rejected (e : JsValue)
  | hung
  | fuelOut
  deriving Repr, DecidableEq

/-- Observable result of a driving-loop run: the trace of callback
invocations, the final heap, the final virtual time, and the outcome. -/
structure RunOut : Type where
  trace : List CallRecord
  heap : Heap
  tEnd : Nat
  out : Outcome
  deriving Repr, DecidableEq

/-- A step callback as passed to `iterate`: closure state, accumulator,
value, key, source object, heap ↦ new closure state, new heap, and a
thrown error or returned value. -/
abbrev StepFn (σ : Type) :=
  σ → JsValue → JsValue → JsValue → JsValue → Heap → σ × Heap × Except JsValue JsValue

/-- A user callback of shape `(value, key, source)` (for `forEach`/`map`),
with closure state and heap access like `StepFn`. -/
abbrev UserFn3 (σ : Type) :=
  σ → JsValue → JsValue → JsValue → Heap → σ × Heap × Except JsValue JsValue

/-- The recursive `next` function inside `iterate`, with an explicit
recursion bound `fuel` (the real loop can run forever if the callback
keeps growing the source array; all theorems supply enough fuel).
Each iteration: one tick for `setImmediate`, then `iter.next()` (whose
promise-resolution delay elapses), then:
* `done` → `resolve(prevResult)`;
* a rejected `next()` → the rejection is dropped (no handler), the
  promise hangs;
* otherwise the callback runs at `t2`; a synchronous throw rejects at
  `t2`; a returned value is resolved (`iterateeResult.then(next)
  .catch(reject)` for a promise, a direct `next(iterateeResult)`
  otherwise), rejecting on failure and otherwise looping with the
  settled value as the next accumulator. -/
def iterateLoop {σ : Type} (fn : StepFn σ) (obj : JsValue) :
    Nat → IterState → σ → JsValue → Heap → Nat → List CallRecord → RunOut
  | 0, _, _, _, h, t, tr => ⟨tr, h, t, .fuelOut⟩
  | fuel + 1, st, s, acc, h, t, tr =>
    let t1 := t + 1
    let stepRes := iterNext h st
    match stepRes.2 with
    | .done d => ⟨tr, h, t1 + d, .resolved acc⟩
    | .rejectedNext d _ => ⟨tr, h, t1 + d, .hung⟩
    | .pairRes d k v =>
      let t2 := t1 + d
      let fnRes := fn s acc v k obj h
      match fnRes.2.2 with
      | .error e => ⟨tr ++ [⟨t2, t2, k, v, .error e⟩], fnRes.2.1, t2, .rejected e⟩
      | .ok rv =>
        let sr := resolveVal rv
        let t3 := t2 + sr.1
        match sr.2 with
        | .error e => ⟨tr ++ [⟨t2, t3, k, v, .error e⟩], fnRes.2.1, t3, .rejected e⟩
        | .ok w =>
          iterateLoop fn obj fuel stepRes.1 fnRes.1 w fnRes.2.1 t3
            (tr ++ [⟨t2, t3, k, v, .ok w⟩])
    | .noPair d =>
      -- `if (result.value)` is false: `key` and `val` stay `undefined`.
      let t2 := t1 + d
      let fnRes := fn s acc .undefined .undefined obj h
      match fnRes.2.2 with
      | .error e => ⟨tr ++ [⟨t2, t2, .undefined, .undefined, .error e⟩], fnRes.2.1, t2, .rejected e⟩
      | .ok rv =>
        let sr := resolveVal rv
        let t3 := t2 + sr.1
        match sr.2 with
        | .error e => ⟨tr ++ [⟨t2, t3, .undefined, .undefined, .error e⟩], fnRes.2.1, t3, .rejected e⟩
        | .ok w =>
          iterateLoop fn obj fuel stepRes.1 fnRes.1 w fnRes.2.1 t3
            (tr ++ [⟨t2, t3, .undefined, .undefined, .ok w⟩])

/-- Result of calling one of the public operations: either a synchronous
throw out of the function itself, or a driving-loop run. -/
inductive IterResult : Type where
  | thrown (e : JsValue)
  | ran (out : RunOut)
  deriving Repr, DecidableEq

/-- `iterate(obj, fn, initAccum)`.  Its first statement,
`(obj[a.asyncIteratorSymbol] || a.asyncIterator).call(obj)`, performs a
property access on `obj`, which throws a `TypeError` synchronously when
`obj` is `null` or `undefined`; otherwise the symbol is absent (nothing
in the library installs it) and `a.asyncIterator` runs. -/
def iterate {σ : Type} (fuel : Nat) (h : Heap) (obj : JsValue)
    (fn : StepFn σ) (s0 : σ) (initAccum : JsValue) : IterResult :=
  match obj with
  | .null => .thrown (.str "TypeError")
  | .undefined => .thrown (.str "TypeError")
  | _ => .ran (iterateLoop fn obj fuel (asyncIteratorOf h obj) s0 initAccum h 0 [])

/-- The `forEach` wrapper `(a, v, k, o) => fn(v, k, o)`: the accumulator
argument is dropped and the user callback's return value becomes the next
accumulator. -/
def forEachStep {σ : Type} (ufn : UserFn3 σ) : StepFn σ :=
  fun s _a v k o hp => ufn s v k o hp

/-- `forEach(obj, fn) = iterate(obj, (a, v, k, o) => fn(v, k, o))`, with
`initAccum` absent (`undefined`). -/
def forEach {σ : Type} (fuel : Nat) (h : Heap) (obj : JsValue)
    (ufn : UserFn3 σ) (s0 : σ) : IterResult :=
  iterate fuel h obj (forEachStep ufn) s0 .undefined

/-- `obj.length`: an array's length, a plain object's own `length`
property (or `undefined`), a string's character count, `undefined` for
other primitives. -/
def jsLengthOf (h : Heap) : JsValue → JsValue
  | .ref r =>
    match h.get? r with
    | some (.arr elems) => .num (Int.ofNat elems.length)
    | some (.objd props) => (props.lookup "length").getD .undefined
    | none => .undefined
  | .str s => .num (Int.ofNat s.length)
  | _ => .undefined

/-- `new Array(x)`: a single numeric argument pre-sizes the array (the
new slots are holes, modelled as `undefined`); a negative or `NaN` argument
throws a `RangeError`; any other single argument yields the one-element
array `[x]`. -/
def arrayNew : JsValue → Except JsValue (List JsValue)
  | .num n => if 0 ≤ n then .ok (List.replicate n.toNat .undefined) else .error (.str "RangeError")
  | .nan => .error (.str "RangeError")
  | v => .ok [v]

/-- Write `v` at a position `i` beyond the current length, padding with
holes (modelled as `undefined`), or in place when `i` is in range. -/
def setExtend (l : List JsValue) (i : Nat) (v : JsValue) : List JsValue :=
  if i < l.length then l.set i v
  else l ++ List.replicate (i - l.length) .undefined ++ [v]

/-- Update an own property or append a new one. -/
def setProp (props : List (String × JsValue)) (k : String) (v : JsValue) :
    List (String × JsValue) :=
  if (props.lookup k).isSome then
    props.map (fun p => if p.1 = k then (k, v) else p)
  else props ++ [(k, v)]

/-- `target[i] = v`.  In the library `target` is always the array `map`
allocated, so the other branches (an object target, a dangling reference,
a primitive — the latter a strict-mode `TypeError`) are unreachable in
every run appearing in this development. -/
def heapSetIdx (h : Heap) (target : JsValue) (i : Nat) (v : JsValue) : Heap :=
  match target with
  | .ref r =>
    match h.get? r with
    | some (.arr elems) => h.set r (.arr (setExtend elems i v))
    | some (.objd props) => h.set r (.objd (setProp props (toString i) v))
    | none => h
  | _ => h

/-- The `map` wrapper
`(a, v, k, o) => { const i = fn(v, k, o); if (i instanceof Promise)
return i.then(r => { a[index++] = r; return a; }); a[index++] = i;
return a; }`.  The closure's `index` is the `Nat` component of the
wrapper state.  The `then`-continuation's write is performed at
resolution; the model applies it when the callback's promise result is
resolved, re-emitting the same delay with the array as a promise
(`promiseRes d a`), which is observationally identical (nothing else
runs during the await, and a rejected result performs no write). -/
def mapStep {σ : Type} (ufn : UserFn3 σ) : StepFn (σ × Nat) :=
  fun p a v k o hp =>
    let u := ufn p.1 v k o hp
    match u.2.2 with
    | .error e => ((u.1, p.2), u.2.1, .error e)
    | .ok i =>
      if isPromiseVal i then
        match (resolveVal i).2 with
        | .ok w =>
          ((u.1, p.2 + 1), heapSetIdx u.2.1 a p.2 w,
            .ok (.promiseRes (resolveVal i).1 a))
        | .error e => ((u.1, p.2), u.2.1, .ok (.promiseRej (resolveVal i).1 e))
      else ((u.1, p.2 + 1), heapSetIdx u.2.1 a p.2 i, .ok a)

/-- `map(obj, fn)`: evaluates `obj.length` (throwing on a `null`/
`undefined` source), allocates `new Array(obj.length)`, and runs
`iterate` with the wrapper
`(a, v, k, o) => { const i = fn(v, k, o); if (i instanceof Promise)
return i.then(r => { a[index++] = r; return a; }); a[index++] = i;
return a; }` and the allocated array as initial accumulator.  The
closure's `index` is the `Nat` component of the wrapper state.  The
`then`-continuation's write is performed at resolution; the model applies
it when the callback's promise result is resolved, re-emitting the same
delay and the array as a promise (`promiseRes d a`), which is
observationally identical (nothing else runs during the await). -/
def map {σ : Type} (fuel : Nat) (h : Heap) (obj : JsValue)
    (ufn : UserFn3 σ) (s0 : σ) : IterResult :=
  match obj with
  | .null => .thrown (.str "TypeError")
  | .undefined => .thrown (.str "TypeError")
  | _ =>
    match arrayNew (jsLengthOf h obj) with
    | .error e => .thrown e
    | .ok init =>
      iterate fuel (h ++ [.arr init]) obj (mapStep ufn) (s0, 0) (.ref h.length)

/-- `reduce(obj, fn, initAccum) = iterate(obj, fn, initAccum)`. -/
def reduce {σ : Type} (fuel : Nat) (h : Heap) (obj : JsValue)
    (fn : StepFn σ) (s0 : σ) (initAccum : JsValue) : IterResult :=
  iterate fuel h obj fn s0 initAccum

/-- The `transform` wrapper
`(a, v, k, o) => { const i = fn(a, v, k, o); if (i instanceof Promise)
return i.then(() => a); return a; }`: the user callback's return value is
awaited if deferred and then discarded, and the incoming accumulator is
re-threaded. -/
def transformStep {σ : Type} (ufn : StepFn σ) : StepFn σ :=
  fun s a v k o hp =>
    let u := ufn s a v k o hp
    match u.2.2 with
    | .error e => (u.1, u.2.1, .error e)
    | .ok i =>
      if isPromiseVal i then
        match (resolveVal i).2 with
        | .ok _ => (u.1, u.2.1, .ok (.promiseRes (resolveVal i).1 a))
        | .error e => (u.1, u.2.1, .ok (.promiseRej (resolveVal i).1 e))
      else (u.1, u.2.1, .ok a)

/-- `transform(obj, fn, initAccum)`: runs `iterate` with the `transform`
wrapper and `initAccum || {}` as initial accumulator — a falsy
`initAccum` is replaced by a freshly allocated empty object. -/
def transform {σ : Type} (fuel : Nat) (h : Heap) (obj : JsValue)
    (ufn : StepFn σ) (s0 : σ) (initAccum : JsValue) : IterResult :=
  let h1 : Heap := if jsTruthy initAccum then h else h ++ [.objd []]
  let acc0 : JsValue := if jsTruthy initAccum then initAccum else .ref h.length
  iterate fuel h1 obj (transformStep ufn) s0 acc0

/-- The settled value of an operation's promise, if it resolved. -/
def resolvedValOf : IterResult → Option JsValue
  | .ran out =>
    match out.out with
    | .resolved v => some v
    | _ => none
  | .thrown _ => none

/-- The outcome of an operation's run (`fuelOut` if it threw). -/
def outcomeOf : IterResult → Outcome
  | .ran out => out.out
  | .thrown _ => .fuelOut

/-- The keys passed to the step callback, in invocation order. -/
def traceKeysOf : IterResult → List JsValue
  | .ran out => out.trace.map CallRecord.key
  | .thrown _ => []

/-- The values passed to the step callback, in invocation order. -/
def traceValsOf : IterResult → List JsValue
  | .ran out => out.trace.map CallRecord.val
  | .thrown _ => []

/-- The contents of the array the operation resolved to, if any. -/
def finalArrOf : IterResult → Option (List JsValue)
  | .ran out =>
    match out.out with
    | .resolved (.ref r) =>
      match out.heap.get? r with
      | some (.arr elems) => some elems
      | _ => none
    | _ => none
  | .thrown _ => none

/-- Strict sequencing of a trace, starting from time `t`: each callback
is invoked strictly after the previous callback's result fully settled
(and after the initial time `t`), and settles no earlier than it is
invoked. -/
def chainFrom (t : Nat) : List CallRecord → Bool
  | [] => true
  | r :: rest => decide (t < r.tCall) && decide (r.tCall ≤ r.tSettle) && chainFrom r.tSettle rest

/-! ## Case equations for the driving loop -/

theorem iterateLoop_zero {σ : Type} (fn : StepFn σ) (obj : JsValue)
    (st : IterState) (s : σ) (acc : JsValue) (h : Heap) (t : Nat)
    (tr : List CallRecord) :
    iterateLoop fn obj 0 st s acc h t tr = ⟨tr, h, t, .fuelOut⟩ := rfl

theorem iterateLoop_done {σ : Type} {fn : StepFn σ} {obj : JsValue}
    {fuel : Nat} {st : IterState} {s : σ} {acc : JsValue} {h : Heap} {t : Nat}
    {tr : List CallRecord} {d : Nat} (hn : (iterNext h st).2 = .done d) :
    iterateLoop fn obj (fuel + 1) st s acc h t tr = ⟨tr, h, t + 1 + d, .resolved acc⟩ := by
  simp only [iterateLoop, hn]

theorem iterateLoop_hung {σ : Type} {fn : StepFn σ} {obj : JsValue}
    {fuel : Nat} {st : IterState} {s : σ} {acc : JsValue} {h : Heap} {t : Nat}
    {tr : List CallRecord} {d : Nat} {e : JsValue}
    (hn : (iterNext h st).2 = .rejectedNext d e) :
    iterateLoop fn obj (fuel + 1) st s acc h t tr = ⟨tr, h, t + 1 + d, .hung⟩ := by
  simp only [iterateLoop, hn]

theorem iterateLoop_pair_throw {σ : Type} {fn : StepFn σ} {obj : JsValue}
    {fuel : Nat} {st : IterState} {s : σ} {acc : JsValue} {h : Heap} {t : Nat}
    {tr : List CallRecord} {d : Nat} {k v e : JsValue}
    (hn : (iterNext h st).2 = .pairRes d k v)
    (hf : (fn s acc v k obj h).2.2 = .error e) :
    iterateLoop fn obj (fuel + 1) st s acc h t tr =
      ⟨tr ++ [⟨t + 1 + d, t + 1 + d, k, v, .error e⟩],
        (fn s acc v k obj h).2.1, t + 1 + d, .rejected e⟩ := by
  simp only [iterateLoop, hn, hf]

theorem iterateLoop_pair_rejres {σ : Type} {fn : StepFn σ} {obj : JsValue}
    {fuel : Nat} {st : IterState} {s : σ} {acc : JsValue} {h : Heap} {t : Nat}
    {tr : List CallRecord} {d : Nat} {k v : JsValue} {rv : JsValue} {d2 : Nat}
    {e : JsValue} (hn : (iterNext h st).2 = .pairRes d k v)
    (hf : (fn s acc v k obj h).2.2 = .ok rv)
    (hr : resolveVal rv = (d2, .error e)) :
    iterateLoop fn obj (fuel + 1) st s acc h t tr =
      ⟨tr ++ [⟨t + 1 + d, t + 1 + d + d2, k, v, .error e⟩],
        (fn s acc v k obj h).2.1, t + 1 + d + d2, .rejected e⟩ := by
  simp only [iterateLoop, hn, hf, hr]

theorem iterateLoop_pair_ok {σ : Type} {fn : StepFn σ} {obj : JsValue}
    {fuel : Nat} {st : IterState} {s : σ} {acc : JsValue} {h : Heap} {t : Nat}
    {tr : List CallRecord} {d : Nat} {k v : JsValue} {rv : JsValue} {d2 : Nat}
    {w : JsValue} (hn : (iterNext h st).2 = .pairRes d k v)
    (hf : (fn s acc v k obj h).2.2 = .ok rv)
    (hr : resolveVal rv = (d2, .ok w)) :
    iterateLoop fn obj (fuel + 1) st s acc h t tr =
      iterateLoop fn obj fuel (iterNext h st).1 (fn s acc v k obj h).1 w
        (fn s acc v k obj h).2.1 (t + 1 + d + d2)
        (tr ++ [⟨t + 1 + d, t + 1 + d + d2, k, v, .ok w⟩]) := by
  simp only [iterateLoop, hn, hf, hr]

theorem iterateLoop_noPair_throw {σ : Type} {fn : StepFn σ} {obj : JsValue}
    {fuel : Nat} {st : IterState} {s : σ} {acc : JsValue} {h : Heap} {t : Nat}
    {tr : List CallRecord} {d : Nat} {e : JsValue}
    (hn : (iterNext h st).2 = .noPair d)
    (hf : (fn s acc .undefined .undefined obj h).2.2 = .error e) :
    iterateLoop fn obj (fuel + 1) st s acc h t tr =
      ⟨tr ++ [⟨t + 1 + d, t + 1 + d, .undefined, .undefined, .error e⟩],
        (fn s acc .undefined .undefined obj h).2.1, t + 1 + d, .rejected e⟩ := by
  simp only [iterateLoop, hn, hf]

theorem iterateLoop_noPair_rejres {σ : Type} {fn : StepFn σ} {obj : JsValue}
    {fuel : Nat} {st : IterState} {s : σ} {acc : JsValue} {h : Heap} {t : Nat}
    {tr : List CallRecord} {d : Nat} {rv : JsValue} {d2 : Nat} {e : JsValue}
    (hn : (iterNext h st).2 = .noPair d)
    (hf : (fn s acc .undefined .undefined obj h).2.2 = .ok rv)
    (hr : resolveVal rv = (d2, .error e)) :
    iterateLoop fn obj (fuel + 1) st s acc h t tr =
      ⟨tr ++ [⟨t + 1 + d, t + 1 + d + d2, .undefined, .undefined, .error e⟩],
        (fn s acc .undefined .undefined obj h).2.1, t + 1 + d + d2, .rejected e⟩ := by
  simp only [iterateLoop, hn, hf, hr]

theorem iterateLoop_noPair_ok {σ : Type} {fn : StepFn σ} {obj : JsValue}
    {fuel : Nat} {st : IterState} {s : σ} {acc : JsValue} {h : Heap} {t : Nat}
    {tr : List CallRecord} {d : Nat} {rv : JsValue} {d2 : Nat} {w : JsValue}
    (hn : (iterNext h st).2 = .noPair d)
    (hf : (fn s acc .undefined .undefined obj h).2.2 = .ok rv)
    (hr : resolveVal rv = (d2, .ok w)) :
    iterateLoop fn obj (fuel + 1) st s acc h t tr =
      iterateLoop fn obj fuel (iterNext h st).1 (fn s acc .undefined .undefined obj h).1 w
        (fn s acc .undefined .undefined obj h).2.1 (t + 1 + d + d2)
        (tr ++ [⟨t + 1 + d, t + 1 + d + d2, .undefined, .undefined, .ok w⟩]) := by
  simp only [iterateLoop, hn, hf, hr]

/-! ## Master lemmas about the driving loop -/

/-- Frame property: if every step-callback invocation (whose accumulator
satisfies `inv`) leaves the heap unchanged at address `r` and
re-establishes `inv` on the next settled accumulator, then the whole run
leaves the heap unchanged at `r` — the loop itself never writes. -/
theorem iterateLoop_frame {σ : Type} (fn : StepFn σ) (obj : JsValue) (r : Nat)
    (inv : JsValue → Prop)
    (hstep : ∀ s acc v k hp, inv acc →
      ((fn s acc v k obj hp).2.1).get? r = hp.get? r ∧
      (∀ rv d2 w, (fn s acc v k obj hp).2.2 = .ok rv →
        resolveVal rv = (d2, .ok w) → inv w)) :
    ∀ (fuel : Nat) (st : IterState) (s : σ) (acc : JsValue) (h : Heap) (t : Nat)
      (tr : List CallRecord), inv acc →
      ((iterateLoop fn obj fuel st s acc h t tr).heap).get? r = h.get? r := by
  intro fuel
  induction fuel with
  | zero => intro st s acc h t tr _; rfl
  | succ n ih =>
    intro st s acc h t tr hacc
    rcases hn : (iterNext h st).2 with d | ⟨d, k, v⟩ | d | ⟨d, e⟩
    · rw [iterateLoop_done hn]
    · rcases hf : (fn s acc v k obj h).2.2 with e | rv
      · rw [iterateLoop_pair_throw hn hf]
        exact (hstep s acc v k h hacc).1
      · rcases hr : resolveVal rv with ⟨d2, sres⟩
        rcases sres with e | w
        · rw [iterateLoop_pair_rejres hn hf hr]
          exact (hstep s acc v k h hacc).1
        · rw [iterateLoop_pair_ok hn hf hr]
          exact (ih _ _ _ _ _ _ ((hstep s acc v k h hacc).2 rv d2 w hf hr)).trans
            (hstep s acc v k h hacc).1
    · rcases hf : (fn s acc .undefined .undefined obj h).2.2 with e | rv
      · rw [iterateLoop_noPair_throw hn hf]
        exact (hstep s acc .undefined .undefined h hacc).1
      · rcases hr : resolveVal rv with ⟨d2, sres⟩
        rcases sres with e | w
        · rw [iterateLoop_noPair_rejres hn hf hr]
          exact (hstep s acc .undefined .undefined h hacc).1
        · rw [iterateLoop_noPair_ok hn hf hr]
          exact (ih _ _ _ _ _ _
            ((hstep s acc .undefined .undefined h hacc).2 rv d2 w hf hr)).trans
            (hstep s acc .undefined .undefined h hacc).1
    · rw [iterateLoop_hung hn]

/-- If every settled step result re-establishes `inv`, a resolved run
resolves to an accumulator satisfying `inv`. -/
theorem iterateLoop_resolved_inv {σ : Type} (fn : StepFn σ) (obj : JsValue)
    (inv : JsValue → Prop)
    (hstep : ∀ s acc v k hp, inv acc →
      ∀ rv d2 w, (fn s acc v k obj hp).2.2 = .ok rv →
        resolveVal rv = (d2, .ok w) → inv w) :
    ∀ (fuel : Nat) (st : IterState) (s : σ) (acc : JsValue) (h : Heap) (t : Nat)
      (tr : List CallRecord), inv acc →
      ∀ v, (iterateLoop fn obj fuel st s acc h t tr).out = .resolved v → inv v := by
  intro fuel
  induction fuel with
  | zero => intro st s acc h t tr _ v hv; simp [iterateLoop_zero] at hv
  | succ n ih =>
    intro st s acc h t tr hacc v hv
    rcases hn : (iterNext h st).2 with d | ⟨d, k, v'⟩ | d | ⟨d, e⟩
    · rw [iterateLoop_done hn] at hv
      cases hv
      exact hacc
    · rcases hf : (fn s acc v' k obj h).2.2 with e | rv
      · rw [iterateLoop_pair_throw hn hf] at hv; cases hv
      · rcases hr : resolveVal rv with ⟨d2, sres⟩
        rcases sres with e | w
        · rw [iterateLoop_pair_rejres hn hf hr] at hv; cases hv
        · rw [iterateLoop_pair_ok hn hf hr] at hv
          exact ih _ _ _ _ _ _ ((hstep s acc v' k h hacc) rv d2 w hf hr) v hv
    · rcases hf : (fn s acc .undefined .undefined obj h).2.2 with e | rv
      · rw [iterateLoop_noPair_throw hn hf] at hv; cases hv
      · rcases hr : resolveVal rv with ⟨d2, sres⟩
        rcases sres with e | w
        · rw [iterateLoop_noPair_rejres hn hf hr] at hv; cases hv
        · rw [iterateLoop_noPair_ok hn hf hr] at hv
          exact ih _ _ _ _ _ _
            ((hstep s acc .undefined .undefined h hacc) rv d2 w hf hr) v hv
    · rw [iterateLoop_hung hn] at hv; cases hv

/-- A resolved run resolves either to the initial accumulator (no
callback ran beyond the entry trace) or to the settled result of the last
callback invocation. -/
theorem iterateLoop_resolved_last {σ : Type} (fn : StepFn σ) (obj : JsValue) :
    ∀ (fuel : Nat) (st : IterState) (s : σ) (acc : JsValue) (h : Heap) (t : Nat)
      (tr : List CallRecord) (v : JsValue),
      (iterateLoop fn obj fuel st s acc h t tr).out = .resolved v →
      ((iterateLoop fn obj fuel st s acc h t tr).trace = tr ∧ v = acc) ∨
      (∃ rec, ((iterateLoop fn obj fuel st s acc h t tr).trace).getLast? = some rec ∧
        rec.res = .ok v) := by
  intro fuel
  induction fuel with
  | zero => intro st s acc h t tr v hv; simp [iterateLoop_zero] at hv
  | succ n ih =>
    intro st s acc h t tr v hv
    rcases hn : (iterNext h st).2 with d | ⟨d, k, v'⟩ | d | ⟨d, e⟩
    · rw [iterateLoop_done hn] at hv ⊢
      cases hv
      exact Or.inl ⟨rfl, rfl⟩
    · rcases hf : (fn s acc v' k obj h).2.2 with e | rv
      · rw [iterateLoop_pair_throw hn hf] at hv; cases hv
      · rcases hr : resolveVal rv with ⟨d2, sres⟩
        rcases sres with e | w
        · rw [iterateLoop_pair_rejres hn hf hr] at hv; cases hv
        · rw [iterateLoop_pair_ok hn hf hr] at hv ⊢
          rcases ih _ _ _ _ _ _ v hv with ⟨htr, hvw⟩ | ⟨rec, hlast, hres⟩
          · refine Or.inr ⟨⟨t + 1 + d, t + 1 + d + d2, k, v', .ok w⟩, ?_, by rw [hvw]⟩
            rw [htr]
            exact List.getLast?_concat _
          · exact Or.inr ⟨rec, hlast, hres⟩
    · rcases hf : (fn s acc .undefined .undefined obj h).2.2 with e | rv
      · rw [iterateLoop_noPair_throw hn hf] at hv; cases hv
      · rcases hr : resolveVal rv with ⟨d2, sres⟩
        rcases sres with e | w
        · rw [iterateLoop_noPair_rejres hn hf hr] at hv; cases hv
        · rw [iterateLoop_noPair_ok hn hf hr] at hv ⊢
          rcases ih _ _ _ _ _ _ v hv with ⟨htr, hvw⟩ | ⟨rec, hlast, hres⟩
          · refine Or.inr ⟨⟨t + 1 + d, t + 1 + d + d2, .undefined, .undefined, .ok w⟩, ?_, by rw [hvw]⟩
            rw [htr]
            exact List.getLast?_concat _
          · exact Or.inr ⟨rec, hlast, hres⟩
    · rw [iterateLoop_hung hn] at hv; cases hv

/-- If a trace extending an all-successful entry trace by one record has
a failed record at position `i`, that position is the appended (last)
record. -/
theorem trace_last_aux {tr : List CallRecord} {newRec : CallRecord} {i : Nat}
    {rec : CallRecord} {e : JsValue}
    (hpre : ∀ rec ∈ tr, ∀ e, rec.res ≠ .error e)
    (hget : (tr ++ [newRec]).get? i = some rec)
    (hres : rec.res = .error e) :
    i = (tr ++ [newRec]).length - 1 ∧ rec = newRec := by
  by_cases hi : i < tr.length
  · rw [List.get?_append hi] at hget
    exact absurd hres (hpre rec (List.get?_mem hget) e)
  · have hlen : i < (tr ++ [newRec]).length := by
      rcases List.get?_eq_some.1 hget with ⟨hl, _⟩
      exact hl
    rw [List.length_append, List.length_singleton] at hlen
    have hieq : i = tr.length := Nat.le_antisymm (Nat.lt_succ_iff.1 hlen) (Nat.le_of_not_lt hi)
    subst hieq
    rw [List.get?_concat_length] at hget
    cases hget
    simp

/-- Failures only at the end: provided the entry trace contains no
failed record, any trace record whose settled result is an error is the
final record, and the run's outcome is a rejection with exactly that
error — so no callback invocation ever follows a failing one. -/
theorem iterateLoop_fail_last {σ : Type} (fn : StepFn σ) (obj : JsValue) :
    ∀ (fuel : Nat) (st : IterState) (s : σ) (acc : JsValue) (h : Heap) (t : Nat)
      (tr : List CallRecord),
      (∀ rec ∈ tr, ∀ e, rec.res ≠ .error e) →
      ∀ i rec e, ((iterateLoop fn obj fuel st s acc h t tr).trace).get? i = some rec →
        rec.res = .error e →
        i = ((iterateLoop fn obj fuel st s acc h t tr).trace).length - 1 ∧
        (iterateLoop fn obj fuel st s acc h t tr).out = .rejected e := by
  intro fuel
  induction fuel with
  | zero =>
    intro st s acc h t tr hpre i rec e hget hres
    exact absurd hres (hpre rec (List.get?_mem hget) e)
  | succ n ih =>
    intro st s acc h t tr hpre i rec e hget hres
    rcases hn : (iterNext h st).2 with d | ⟨d, k, v⟩ | d | ⟨d, e'⟩
    · rw [iterateLoop_done hn] at hget ⊢
      exact absurd hres (hpre rec (List.get?_mem hget) e)
    · rcases hf : (fn s acc v k obj h).2.2 with e0 | rv
      · rw [iterateLoop_pair_throw hn hf] at hget ⊢
        rcases trace_last_aux hpre hget hres with ⟨h1, rfl⟩
        simp at hres
        subst hres
        exact ⟨h1, rfl⟩
      · rcases hr : resolveVal rv with ⟨d2, sres⟩
        rcases sres with e0 | w
        · rw [iterateLoop_pair_rejres hn hf hr] at hget ⊢
          rcases trace_last_aux hpre hget hres with ⟨h1, rfl⟩
          simp at hres
          subst hres
          exact ⟨h1, rfl⟩
        · rw [iterateLoop_pair_ok hn hf hr] at hget ⊢
          refine ih _ _ _ _ _ _ ?_ i rec e hget hres
          intro rec' hmem e''
          rcases List.mem_append.1 hmem with hmem' | hmem'
          · exact hpre rec' hmem' e''
          · rcases List.mem_singleton.1 hmem' with rfl
            simp
    · rcases hf : (fn s acc .undefined .undefined obj h).2.2 with e0 | rv
      · rw [iterateLoop_noPair_throw hn hf] at hget ⊢
        rcases trace_last_aux hpre hget hres with ⟨h1, rfl⟩
        simp at hres
        subst hres
        exact ⟨h1, rfl⟩
      · rcases hr : resolveVal rv with ⟨d2, sres⟩
        rcases sres with e0 | w
        · rw [iterateLoop_noPair_rejres hn hf hr] at hget ⊢
          rcases trace_last_aux hpre hget hres with ⟨h1, rfl⟩
          simp at hres
          subst hres
          exact ⟨h1, rfl⟩
        · rw [iterateLoop_noPair_ok hn hf hr] at hget ⊢
          refine ih _ _ _ _ _ _ ?_ i rec e hget hres
          intro rec' hmem e''
          rcases List.mem_append.1 hmem with hmem' | hmem'
          · exact hpre rec' hmem' e''
          · rcases List.mem_singleton.1 hmem' with rfl
            simp
    · rw [iterateLoop_hung hn] at hget ⊢
      exact absurd hres (hpre rec (List.get?_mem hget) e)

/-- Dispatch lemma: a run that did not throw is the driving loop started
on the adapter's iterator, with an empty trace at time 0. -/
theorem iterate_ran {σ : Type} {fuel : Nat} {h : Heap} {obj : JsValue}
    {fn : StepFn σ} {s0 : σ} {initAccum : JsValue} {out : RunOut}
    (hrun : iterate fuel h obj fn s0 initAccum = .ran out) :
    out = iterateLoop fn obj fuel (asyncIteratorOf h obj) s0 initAccum h 0 [] := by
  cases obj <;> simp only [iterate] at hrun <;> cases hrun <;> rfl

/-- The run of an operation that did not throw (junk value otherwise). -/
def runOutOf : IterResult → RunOut
  | .ran out => out
  | .thrown _ => ⟨[], [], 0, .fuelOut⟩

/-- A non-promise settles immediately as itself. -/
theorem resolveVal_nonpromise {x : JsValue} (hx : isPromiseVal x = false) :
    resolveVal x = (0, .ok x) := by
  cases x <;> first | rfl | (exact absurd hx (by simp [isPromiseVal]))

/-! ## C4 -/

/-- C4: for every source, callback and initial accumulator, if a callback
invocation's settled result is an error (a synchronous throw or a
rejected deferred result), that invocation is the last one in the trace —
no subsequent callback invocation occurs — and the operation's overall
result rejects with exactly that error.  (All four public operations
return `iterate`'s result directly.) -/
theorem c4_callback_failure_terminal {σ : Type} (fuel : Nat) (h : Heap)
    (obj : JsValue) (fn : StepFn σ) (s0 : σ) (initAccum : JsValue)
    (out : RunOut) (hrun : iterate fuel h obj fn s0 initAccum = .ran out)
    (i : Nat) (rec : CallRecord) (e : JsValue)
    (hget : out.trace.get? i = some rec) (hres : rec.res = .error e) :
    i = out.trace.length - 1 ∧ out.out = .rejected e := by
  rw [iterate_ran hrun] at hget ⊢
  exact iterateLoop_fail_last fn obj fuel _ s0 initAccum h 0 [] (by simp)
    i rec e hget hres

def c4srcHeap : Heap := [.arr [.num 1, .num 2]]

def c4fn : StepFn Unit := fun _ _ _ _ _ hp => ((), hp, .error (.str "boom"))

def c4out : RunOut := runOutOf (iterate 5 c4srcHeap (.ref 0) c4fn () .undefined)

/-- C4 witness: a callback that throws synchronously on the first element
of `[1, 2]` makes the operation reject with that error, the failing
invocation being the last. -/
theorem c4_witness :
    (0 : Nat) = c4out.trace.length - 1 ∧ c4out.out = .rejected (.str "boom") :=
  c4_callback_failure_terminal 5 c4srcHeap (.ref 0) c4fn () .undefined c4out rfl 0
    ⟨1, 1, .num 0, .num 1, .error (.str "boom")⟩ (.str "boom") rfl rfl

/-! ## C2 -/

/-- C2: a deferred value embedded in the source that rejects does NOT
surface as a rejection of the operation's result: in `iterate`,
`iter.next().then(result => ...)` has no rejection handler, so when the
adapter's `next()` promise rejects (the `Promise.all` over the pair
rejects), neither `resolve` nor `reject` is ever invoked and the returned
promise never settles, for each of the four operations.  The claim (and
§7 of the spec) say the failure is surfaced as a single rejection of the
top-level result, identically to a callback failure — the code drops it
instead (an unhandled promise rejection). -/
theorem c2_source_rejection_never_settles :
    outcomeOf (forEach 5 [.arr [.promiseRej 0 (.str "boom")]] (.ref 0)
      (fun (_ : Unit) v _ _ hp => ((), hp, .ok v)) ()) = .hung ∧
    outcomeOf (map 5 [.arr [.promiseRej 0 (.str "boom")]] (.ref 0)
      (fun (_ : Unit) v _ _ hp => ((), hp, .ok v)) ()) = .hung ∧
    outcomeOf (reduce 5 [.arr [.promiseRej 0 (.str "boom")]] (.ref 0)
      (fun (_ : Unit) a _ _ _ hp => ((), hp, .ok a)) () (.num 0)) = .hung ∧
    outcomeOf (transform 5 [.arr [.promiseRej 0 (.str "boom")]] (.ref 0)
      (fun (_ : Unit) a _ _ _ hp => ((), hp, .ok a)) () .undefined) = .hung :=
  ⟨rfl, rfl, rfl, rfl⟩

/-! ## C7 -/

/-- C7: `reduce([Promise.resolve(1), Promise.resolve(2),
Promise.resolve(3)], (a, v, k) => a + (v * k), 0)` resolves to 8: each
source value is resolved before the callback sees it, and the callback
receives the concrete values 1, 2, 3 with keys 0, 1, 2 in order. -/
theorem c7_deferred_unwrap :
    resolvedValOf (reduce 10
      [.arr [.promiseRes 1 (.num 1), .promiseRes 1 (.num 2), .promiseRes 1 (.num 3)]]
      (.ref 0)
      (fun (_ : Unit) a v k _ hp =>
        ((), hp, .ok (match a, v, k with
          | .num x, .num y, .num z => JsValue.num (x + y * z)
          | _, _, _ => .nan)))
      () (.num 0)) = some (.num 8) ∧
    traceValsOf (reduce 10
      [.arr [.promiseRes 1 (.num 1), .promiseRes 1 (.num 2), .promiseRes 1 (.num 3)]]
      (.ref 0)
      (fun (_ : Unit) a v k _ hp =>
        ((), hp, .ok (match a, v, k with
          | .num x, .num y, .num z => JsValue.num (x + y * z)
          | _, _, _ => .nan)))
      () (.num 0)) = [.num 1, .num 2, .num 3] ∧
    traceKeysOf (reduce 10
      [.arr [.promiseRes 1 (.num 1), .promiseRes 1 (.num 2), .promiseRes 1 (.num 3)]]
      (.ref 0)
      (fun (_ : Unit) a v k _ hp =>
        ((), hp, .ok (match a, v, k with
          | .num x, .num y, .num z => JsValue.num (x + y * z)
          | _, _, _ => .nan)))
      () (.num 0)) = [.num 0, .num 1, .num 2] :=
  ⟨rfl, rfl, rfl⟩

/-! ## C3 -/

/-- C3 counterexample: `forEach([1], () => 42)` resolves to 42, not to
`undefined` — the engine does not discard the final accumulator, because
the `forEach` wrapper `(a, v, k, o) => fn(v, k, o)` returns the user
callback's result and `iterate` resolves with the final accumulator. -/
theorem c3_counterexample :
    resolvedValOf (forEach 5 [.arr [.num 1]] (.ref 0)
      (fun (_ : Unit) _ _ _ hp => ((), hp, .ok (.num 42))) ()) = some (.num 42) ∧
    some (JsValue.num 42) ≠ some JsValue.undefined :=
  ⟨rfl, by decide⟩

/-- C3 (amended): `forEach(source, fn)` resolves to the settled result of
the last callback invocation, or to `undefined` when no callback ran
(empty source) — not to `undefined` unconditionally. -/
theorem c3_forEach_resolves_last {σ : Type} (fuel : Nat) (h : Heap)
    (obj : JsValue) (ufn : UserFn3 σ) (s0 : σ) (out : RunOut) (v : JsValue)
    (hrun : forEach fuel h obj ufn s0 = .ran out)
    (hres : out.out = .resolved v) :
    (out.trace = [] ∧ v = .undefined) ∨
    (∃ rec, out.trace.getLast? = some rec ∧ rec.res = .ok v) := by
  rw [forEach] at hrun
  rw [iterate_ran hrun] at hres ⊢
  exact iterateLoop_resolved_last (forEachStep ufn) obj fuel _ s0 .undefined h 0 [] v hres

def c3out : RunOut := runOutOf (forEach 5 [.arr [.num 1]] (.ref 0)
  (fun (_ : Unit) _ _ _ hp => ((), hp, .ok (.num 42))) ())

/-- C3 witness: the amended statement applied to `forEach([1], () => 42)`,
which resolves to the last (only) callback's result 42. -/
theorem c3_witness :
    (c3out.trace = [] ∧ JsValue.num 42 = .undefined) ∨
    (∃ rec, c3out.trace.getLast? = some rec ∧ rec.res = .ok (.num 42)) :=
  c3_forEach_resolves_last 5 [.arr [.num 1]] (.ref 0)
    (fun (_ : Unit) _ _ _ hp => ((), hp, .ok (.num 42))) () c3out (.num 42) rfl rfl

/-! ## C5 and C10: transform -/

/-- Helper: a resolved `transform` run resolves to its chosen initial
accumulator — `initAccum` when truthy, the freshly allocated empty object
otherwise — provided that accumulator is not itself a promise (the
wrapper re-threads the accumulator every step, so it is invariant). -/
theorem transform_resolves_to_acc0 {σ : Type} (fuel : Nat) (h : Heap)
    (obj : JsValue) (ufn : StepFn σ) (s0 : σ) (initAccum : JsValue)
    (out : RunOut) (v : JsValue)
    (hnp : isPromiseVal (if jsTruthy initAccum then initAccum else .ref h.length) = false)
    (hrun : transform fuel h obj ufn s0 initAccum = .ran out)
    (hres : out.out = .resolved v) :
    v = (if jsTruthy initAccum then initAccum else .ref h.length) := by
  rw [transform] at hrun
  rw [iterate_ran hrun] at hres
  refine iterateLoop_resolved_inv (transformStep ufn) obj
    (fun acc => acc = (if jsTruthy initAccum then initAccum else .ref h.length))
    ?_ fuel _ s0 _ _ 0 [] rfl v hres
  intro s acc vv k hp hacc rv d2 w hok hrw
  subst hacc
  simp only [transformStep] at hok
  rcases hu : (ufn s (if jsTruthy initAccum then initAccum else .ref h.length)
      vv k obj hp).2.2 with e | i
  · rw [hu] at hok
    cases hok
  · rw [hu] at hok
    by_cases hpi : isPromiseVal i
    · simp only [hpi, if_pos] at hok
      rcases hri : (resolveVal i).2 with e | w'
      · rw [hri] at hok
        cases hok
        rw [resolveVal] at hrw
        simp at hrw
      · rw [hri] at hok
        cases hok
        rw [resolveVal] at hrw
        rw [resolveVal_nonpromise hnp] at hrw
        simp at hrw
        exact hrw.2.symm
    · simp only [hpi, if_neg, Bool.false_eq_true, not_false_eq_true] at hok
      cases hok
      rw [resolveVal_nonpromise hnp] at hrw
      simp at hrw
      exact hrw.2.symm

/-- C5 counterexample: with a deferred initial accumulator
`Promise.resolve(7)`, `transform` resolves to 7 — the promise's
resolution — not to the provided accumulator object itself (the promise),
so "resolves to the very same object identity as the provided
initialAccumulator" fails for deferred accumulators: the wrapper's
re-threaded accumulator is a promise, which `iterate` awaits and replaces
by its settled value. -/
theorem c5_counterexample :
    resolvedValOf (transform 5 [.arr [.num 1]] (.ref 0)
      (fun (_ : Unit) a _ _ _ hp => ((), hp, .ok a)) () (.promiseRes 0 (.num 7)))
      = some (.num 7) ∧
    some (JsValue.num 7) ≠ some (JsValue.promiseRes 0 (.num 7)) :=
  ⟨rfl, by decide⟩

/-- C5 (amended): for every source, callback and every *non-deferred*
initial accumulator, a resolved `transform` resolves to the very same
value (same reference, hence same object identity) as the provided
initial accumulator — or the freshly allocated empty mapping when the
provided one is falsy — regardless of what the callback returned; the
callback's heap mutations are visible since the heap is threaded through
every invocation. -/
theorem c5_transform_identity {σ : Type} (fuel : Nat) (h : Heap)
    (obj : JsValue) (ufn : StepFn σ) (s0 : σ) (initAccum : JsValue)
    (out : RunOut) (v : JsValue)
    (hp : isPromiseVal initAccum = false)
    (hrun : transform fuel h obj ufn s0 initAccum = .ran out)
    (hres : out.out = .resolved v) :
    v = (if jsTruthy initAccum then initAccum else .ref h.length) := by
  refine transform_resolves_to_acc0 fuel h obj ufn s0 initAccum out v ?_ hrun hres
  by_cases ht : jsTruthy initAccum = true
  · rw [if_pos ht]; exact hp
  · rw [if_neg ht]; rfl

/-- JavaScript string coercion of a property key. -/
def jsKeyString : JsValue → String
  | .str s => s
  | .num n => toString n
  | _ => ""

/-- A callback that mutates its accumulator object in place:
`(a, v, k) => { a[k] = v; }` (returning `undefined`). -/
def mutFn : StepFn Unit := fun _ a v k _ hp =>
  match a with
  | .ref r =>
    match hp.get? r with
    | some (.objd props) => ((), hp.set r (.objd (setProp props (jsKeyString k) v)), .ok .undefined)
    | _ => ((), hp, .ok .undefined)
  | _ => ((), hp, .ok .undefined)

def mutHeap : Heap := [.arr [.num 1, .num 2], .objd []]

def c5out : RunOut := runOutOf (transform 9 mutHeap (.ref 0) mutFn () (.ref 1))

/-- C5 witness: `transform([1, 2], (a, v, k) => { a[k] = v; }, accObj)`
resolves to the very accumulator reference that was passed in, and the
callback's mutations are visible on it. -/
theorem c5_witness :
    JsValue.ref 1 =
      (if jsTruthy (JsValue.ref 1) then JsValue.ref 1 else .ref mutHeap.length) ∧
    c5out.heap.get? 1 = some (.objd [("0", .num 1), ("1", .num 2)]) :=
  ⟨c5_transform_identity 9 mutHeap (.ref 0) mutFn () (.ref 1) c5out (.ref 1)
    rfl rfl rfl, rfl⟩

/-- C10: for every falsy provided initial accumulator (0, empty string,
false, null, NaN, undefined), `transform` discards the caller's
accumulator — `initAccum || {}` — and resolves to the freshly allocated
empty mapping (an address one past the entry heap, hence a new object),
not to the provided falsy value. -/
theorem c10_falsy_accumulator_replaced {σ : Type} (fuel : Nat) (h : Heap)
    (obj : JsValue) (ufn : StepFn σ) (s0 : σ) (initAccum : JsValue)
    (out : RunOut) (v : JsValue)
    (hfalsy : jsTruthy initAccum = false)
    (hrun : transform fuel h obj ufn s0 initAccum = .ran out)
    (hres : out.out = .resolved v) :
    v = .ref h.length ∧ h.get? h.length = none := by
  have hv := transform_resolves_to_acc0 fuel h obj ufn s0 initAccum out v
    (by simp [hfalsy, isPromiseVal]) hrun hres
  simp only [hfalsy, Bool.false_eq_true, if_false] at hv
  exact ⟨hv, List.get?_eq_none.2 (Nat.le_refl _)⟩

def c10out : RunOut := runOutOf (transform 9 mutHeap (.ref 0) mutFn () (.num 0))

/-- C10 witness: `transform([1, 2], (a, v, k) => { a[k] = v; }, 0)`
resolves to a fresh object reference, not to 0. -/
theorem c10_witness :
    JsValue.ref 2 = .ref mutHeap.length ∧ mutHeap.get? mutHeap.length = none :=
  c10_falsy_accumulator_replaced 9 mutHeap (.ref 0) mutFn () (.num 0) c10out
    (.ref 2) rfl rfl rfl

/-! ## C6 -/

/-- A non-object scalar in the sense of the `typeof this === 'object'`
dispatch: booleans, numbers, NaN and strings (`null`/`undefined` make
`iterate` throw before dispatch, references and promises are objects). -/
def isScalarVal : JsValue → Bool
  | .bool _ => true
  | .num _ => true
  | .nan => true
  | .str _ => true
  | _ => false

/-- C6 counterexample: `forEach(null, fn)` does not invoke the callback
once with `value = null` — it throws a `TypeError` synchronously (the
property access `obj[asyncIteratorSymbol]` on `null`) and the callback is
never invoked; likewise for `undefined`. -/
theorem c6_counterexample :
    forEach 5 [] JsValue.null
      (fun (_ : Unit) v _ _ hp => ((), hp, .ok v)) () = .thrown (.str "TypeError") ∧
    forEach 5 [] JsValue.undefined
      (fun (_ : Unit) v _ _ hp => ((), hp, .ok v)) () = .thrown (.str "TypeError") :=
  ⟨rfl, rfl⟩

/-- C6 (amended): for every non-object scalar source `s` other than
`null`/`undefined` (numbers including NaN, booleans, strings),
`forEach(s, fn)` invokes the callback exactly once, with value `s` and
key absent (`undefined`), and when the callback's result settles
successfully the operation resolves; `null`/`undefined` instead throw a
`TypeError` before any callback invocation (see the counterexample). -/
theorem c6_scalar_single_visit {σ : Type} (fuel : Nat) (h : Heap)
    (sv : JsValue) (ufn : UserFn3 σ) (s0 : σ)
    (hs : isScalarVal sv = true) (hfuel : 2 ≤ fuel) :
    ∃ out, forEach fuel h sv ufn s0 = .ran out ∧
      out.trace.map (fun rec => (rec.key, rec.val)) = [(JsValue.undefined, sv)] ∧
      (∀ s2 h2 rv d w, ufn s0 sv .undefined sv h = (s2, h2, .ok rv) →
        resolveVal rv = (d, .ok w) → out.out = .resolved w) := by
  obtain ⟨n, rfl⟩ : ∃ n, fuel = n + 2 := by
    rcases Nat.exists_eq_add_of_le hfuel with ⟨n, hn⟩
    exact ⟨n, by omega⟩
  have hran : forEach (n + 2) h sv ufn s0 =
      .ran (iterateLoop (forEachStep ufn) sv (n + 2) (.singleIter sv false)
        s0 .undefined h 0 []) := by
    rw [forEach]
    cases sv <;> first | rfl | (exact absurd hs (by simp [isScalarVal]))
  refine ⟨_, hran, ?_⟩
  have hn1 : (iterNext h (IterState.singleIter sv false)).2 = .pairRes 0 .undefined sv := rfl
  rcases hf : (forEachStep ufn s0 JsValue.undefined sv JsValue.undefined sv h).2.2 with e | rv'
  · rw [iterateLoop_pair_throw hn1 hf]
    refine ⟨rfl, ?_⟩
    intro s2 h2 rv d w hufn hrw
    have hfr : (forEachStep ufn s0 JsValue.undefined sv JsValue.undefined sv h).2.2 = .ok rv := by
      show (ufn s0 sv .undefined sv h).2.2 = .ok rv
      rw [hufn]
    rw [hf] at hfr
    cases hfr
  · rcases hr : resolveVal rv' with ⟨d2, sres⟩
    rcases sres with e | w'
    · rw [iterateLoop_pair_rejres hn1 hf hr]
      refine ⟨rfl, ?_⟩
      intro s2 h2 rv d w hufn hrw
      have hfr : (forEachStep ufn s0 JsValue.undefined sv JsValue.undefined sv h).2.2 = .ok rv := by
        show (ufn s0 sv .undefined sv h).2.2 = .ok rv
        rw [hufn]
      rw [hf] at hfr
      cases hfr
      rw [hr] at hrw
      cases hrw
    · rw [iterateLoop_pair_ok hn1 hf hr]
      have hn2 : (iterNext (forEachStep ufn s0 JsValue.undefined sv JsValue.undefined sv h).2.1
          (iterNext h (IterState.singleIter sv false)).1).2 = .done 0 := rfl
      rw [iterateLoop_done hn2]
      refine ⟨rfl, ?_⟩
      intro s2 h2 rv d w hufn hrw
      have hfr : (forEachStep ufn s0 JsValue.undefined sv JsValue.undefined sv h).2.2 = .ok rv := by
        show (ufn s0 sv .undefined sv h).2.2 = .ok rv
        rw [hufn]
      rw [hf] at hfr
      cases hfr
      rw [hr] at hrw
      cases hrw
      rfl

/-- C6 witness: the amended statement applied to `forEach(5, fn)`: one
invocation with value 5 and key `undefined`, resolving normally. -/
theorem c6_witness :
    ∃ out, forEach 5 [] (JsValue.num 5)
        ((fun _ v _ _ hp => ((), hp, Except.ok v)) : UserFn3 Unit) () = .ran out ∧
      out.trace.map (fun rec => (rec.key, rec.val)) = [(JsValue.undefined, JsValue.num 5)] ∧
      (∀ s2 h2 rv d w,
        ((fun _ v _ _ hp => ((), hp, Except.ok v)) : UserFn3 Unit) () (JsValue.num 5)
          JsValue.undefined (JsValue.num 5) ([] : Heap) = (s2, h2, .ok rv) →
        resolveVal rv = (d, .ok w) → out.out = .resolved w) :=
  c6_scalar_single_visit 5 [] (.num 5)
    (fun _ v _ _ hp => ((), hp, .ok v)) () rfl (by decide)

/-! ## C9: the core never mutates the source -/

/-- A `(value, key, source)` callback that never changes the heap at
address `q` (the frame condition "the callback does not mutate the
source"). -/
def Preserves3 {σ : Type} (ufn : UserFn3 σ) (q : Nat) : Prop :=
  ∀ s v k o hp, ((ufn s v k o hp).2.1).get? q = hp.get? q

/-- An `(accumulator, value, key, source)` callback that never changes
the heap at address `q`. -/
def Preserves4 {σ : Type} (fn : StepFn σ) (q : Nat) : Prop :=
  ∀ s a v k o hp, ((fn s a v k o hp).2.1).get? q = hp.get? q

/-- `target[i] = v` on a reference distinct from `q` leaves the heap
unchanged at `q`. -/
theorem heapSetIdx_get?_ne {hp : Heap} {L : Nat} {i : Nat} {v : JsValue}
    {q : Nat} (hne : L ≠ q) :
    (heapSetIdx hp (.ref L) i v).get? q = hp.get? q := by
  simp only [heapSetIdx]
  rcases hg : hp.get? L with _ | dd
  · rfl
  · cases dd
    · exact List.get?_set_ne _ _ hne
    · exact List.get?_set_ne _ _ hne

/-- The `transform` wrapper preserves any address its user callback
preserves. -/
theorem transformStep_preserves {σ : Type} (ufn : StepFn σ) (q : Nat)
    (hpres : Preserves4 ufn q) :
    ∀ s a v k (o : JsValue) hp, ((transformStep ufn s a v k o hp).2.1).get? q = hp.get? q := by
  intro s a v k o hp
  simp only [transformStep]
  rcases hu : (ufn s a v k o hp).2.2 with e | i
  · exact hpres s a v k o hp
  · by_cases hpi : isPromiseVal i = true
    · simp only [hpi]
      rcases hri : (resolveVal i).2 with e | w
      · exact hpres s a v k o hp
      · exact hpres s a v k o hp
    · simp only [Bool.not_eq_true] at hpi
      simp only [hpi]
      exact hpres s a v k o hp

/-- The `map` wrapper, when its accumulator is a reference distinct from
`q`, preserves any address its user callback preserves (its only own
write is `a[index] = r`). -/
theorem mapStep_preserves {σ : Type} (ufn : UserFn3 σ) (q L : Nat) (hne : L ≠ q)
    (hpres : Preserves3 ufn q) :
    ∀ p v k (o : JsValue) hp, ((mapStep ufn p (.ref L) v k o hp).2.1).get? q = hp.get? q := by
  intro p v k o hp
  simp only [mapStep]
  rcases hu : (ufn p.1 v k o hp).2.2 with e | i
  · exact hpres p.1 v k o hp
  · by_cases hpi : isPromiseVal i = true
    · simp only [hpi]
      rcases hri : (resolveVal i).2 with e | w
      · exact hpres p.1 v k o hp
      · exact (heapSetIdx_get?_ne hne).trans (hpres p.1 v k o hp)
    · simp only [Bool.not_eq_true] at hpi
      simp only [hpi]
      exact (heapSetIdx_get?_ne hne).trans (hpres p.1 v k o hp)

/-- The `map` wrapper re-threads its array accumulator: every settled
successful step result is the accumulator reference itself. -/
theorem mapStep_acc_inv {σ : Type} (ufn : UserFn3 σ) (L : Nat) :
    ∀ p v k (o : JsValue) hp rv d2 w,
      (mapStep ufn p (.ref L) v k o hp).2.2 = .ok rv →
      resolveVal rv = (d2, .ok w) → w = .ref L := by
  intro p v k o hp rv d2 w hok hrw
  simp only [mapStep] at hok
  rcases hu : (ufn p.1 v k o hp).2.2 with e | i
  · rw [hu] at hok
    cases hok
  · rw [hu] at hok
    by_cases hpi : isPromiseVal i
    · simp only [hpi, if_pos] at hok
      rcases hri : (resolveVal i).2 with e | w' <;> rw [hri] at hok <;> cases hok
      · rw [resolveVal] at hrw
        simp at hrw
      · rw [resolveVal] at hrw
        simp only [resolveVal] at hrw
        simp at hrw
        exact hrw.2.symm
    · simp only [hpi, Bool.false_eq_true, if_false] at hok
      cases hok
      rw [resolveVal] at hrw
      simp at hrw
      exact hrw.2.symm

/-- C9: for all four operations on a collection source, the source's
heap entry is unchanged after the run, provided the caller's callback
does not itself mutate the source (the core performs no write to it:
`map`'s only writes go to its freshly allocated output array, `transform`
writes nothing itself, and the adapter only reads). -/
theorem c9_source_not_mutated {σ : Type} (fuel : Nat) (h : Heap) (q : Nat)
    (d : ObjData) (hval : h.get? q = some d)
    (f1 : UserFn3 σ) (hp1 : Preserves3 f1 q) (s1 : σ)
    (f2 : UserFn3 σ) (hp2 : Preserves3 f2 q) (s2 : σ)
    (f3 : StepFn σ) (hp3 : Preserves4 f3 q) (s3 : σ) (ia3 : JsValue)
    (f4 : StepFn σ) (hp4 : Preserves4 f4 q) (s4 : σ) (ia4 : JsValue) :
    (∀ out, forEach fuel h (.ref q) f1 s1 = .ran out → out.heap.get? q = some d) ∧
    (∀ out, map fuel h (.ref q) f2 s2 = .ran out → out.heap.get? q = some d) ∧
    (∀ out, reduce fuel h (.ref q) f3 s3 ia3 = .ran out → out.heap.get? q = some d) ∧
    (∀ out, transform fuel h (.ref q) f4 s4 ia4 = .ran out → out.heap.get? q = some d) := by
  have hqlt : q < h.length := by
    rcases List.get?_eq_some.1 hval with ⟨hl, _⟩
    exact hl
  refine ⟨?_, ?_, ?_, ?_⟩
  · intro out hout
    rw [forEach] at hout
    rw [iterate_ran hout]
    rw [iterateLoop_frame (forEachStep f1) (.ref q) q (fun _ => True)
      (fun s acc v k hp _ => ⟨hp1 s v k (.ref q) hp, fun _ _ _ _ _ => trivial⟩)
      fuel _ s1 .undefined h 0 [] trivial]
    exact hval
  · intro out hout
    simp only [map] at hout
    rcases ha : arrayNew (jsLengthOf h (.ref q)) with e | init <;> rw [ha] at hout
    · exact absurd hout (by simp)
    · have hout2 : iterate fuel (h ++ [.arr init]) (.ref q) (mapStep f2) (s2, 0)
          (.ref h.length) = .ran out := hout
      rw [iterate_ran hout2]
      have hne : h.length ≠ q := fun hc => absurd (hc ▸ hqlt) (Nat.lt_irrefl _)
      have hstep : ∀ (p : σ × Nat) (acc v k : JsValue) (hp : Heap),
          acc = JsValue.ref h.length →
          ((mapStep f2 p acc v k (JsValue.ref q) hp).2.1).get? q = hp.get? q ∧
          (∀ rv d2 w, (mapStep f2 p acc v k (JsValue.ref q) hp).2.2 = .ok rv →
            resolveVal rv = (d2, .ok w) → w = JsValue.ref h.length) := by
        intro p acc v k hp hacc
        subst hacc
        exact ⟨mapStep_preserves f2 q h.length hne hp2 p v k (.ref q) hp,
          fun rv d2 w hok hrw =>
            mapStep_acc_inv f2 h.length p v k (.ref q) hp rv d2 w hok hrw⟩
      have hframe := iterateLoop_frame (mapStep f2) (.ref q) q
        (fun acc => acc = .ref h.length) hstep fuel
        (asyncIteratorOf (h ++ [.arr init]) (.ref q)) (s2, 0) (.ref h.length)
        (h ++ [.arr init]) 0 [] rfl
      rw [hframe, List.get?_append hqlt]
      exact hval
  · intro out hout
    rw [reduce] at hout
    rw [iterate_ran hout]
    rw [iterateLoop_frame f3 (.ref q) q (fun _ => True)
      (fun s acc v k hp _ => ⟨hp3 s acc v k (.ref q) hp, fun _ _ _ _ _ => trivial⟩)
      fuel _ s3 ia3 h 0 [] trivial]
    exact hval
  · intro out hout
    rw [transform] at hout
    rw [iterate_ran hout]
    rw [iterateLoop_frame (transformStep f4) (.ref q) q (fun _ => True)
      (fun s acc v k hp _ =>
        ⟨transformStep_preserves f4 q hp4 s acc v k (.ref q) hp, fun _ _ _ _ _ => trivial⟩)
      fuel _ s4 _ _ 0 [] trivial]
    by_cases ht : jsTruthy ia4 = true
    · rw [if_pos ht]
      exact hval
    · rw [if_neg ht]
      rw [List.get?_append hqlt]
      exact hval

/-- C9 witness: the four operations run over `[1]` with heap-preserving
callbacks leave the source entry intact. -/
theorem c9_witness :
    (∀ out, forEach 5 [.arr [.num 1]] (.ref 0)
      (fun (_ : Unit) v _ _ hp => ((), hp, .ok v)) () = .ran out →
      out.heap.get? 0 = some (.arr [.num 1])) ∧
    (∀ out, map 5 [.arr [.num 1]] (.ref 0)
      (fun (_ : Unit) v _ _ hp => ((), hp, .ok v)) () = .ran out →
      out.heap.get? 0 = some (.arr [.num 1])) ∧
    (∀ out, reduce 5 [.arr [.num 1]] (.ref 0)
      (fun (_ : Unit) a _ _ _ hp => ((), hp, .ok a)) () (.num 0) = .ran out →
      out.heap.get? 0 = some (.arr [.num 1])) ∧
    (∀ out, transform 5 [.arr [.num 1]] (.ref 0)
      (fun (_ : Unit) a _ _ _ hp => ((), hp, .ok a)) () .undefined = .ran out →
      out.heap.get? 0 = some (.arr [.num 1])) :=
  c9_source_not_mutated 5 [.arr [.num 1]] 0 (.arr [.num 1]) rfl
    (fun _ v _ _ hp => ((), hp, .ok v)) (fun _ _ _ _ _ => rfl) ()
    (fun _ v _ _ hp => ((), hp, .ok v)) (fun _ _ _ _ _ => rfl) ()
    (fun _ a _ _ _ hp => ((), hp, .ok a)) (fun _ _ _ _ _ _ => rfl) () (.num 0)
    (fun _ a _ _ _ hp => ((), hp, .ok a)) (fun _ _ _ _ _ _ => rfl) () .undefined

/-! ## C1: sequential processing in natural order -/

/-- Master lemma, array sources: starting the loop at index `i` of an
array source (stable because the callback preserves it), the new trace
records carry keys `i, i+1, …` in order, each callback is invoked
strictly after the previous result settled, and a resolved run visited
every remaining element. -/
theorem iterateLoop_arr_order {σ : Type} (fn : StepFn σ) (r : Nat)
    (inv : JsValue → Prop)
    (hstep : ∀ s acc v k hp, inv acc →
      ((fn s acc v k (JsValue.ref r) hp).2.1).get? r = hp.get? r ∧
      (∀ rv d2 w, (fn s acc v k (JsValue.ref r) hp).2.2 = .ok rv →
        resolveVal rv = (d2, .ok w) → inv w)) :
    ∀ (fuel : Nat) (elems : List JsValue) (i : Nat) (s : σ) (acc : JsValue)
      (h : Heap) (t : Nat) (tr : List CallRecord),
      h.get? r = some (.arr elems) → i ≤ elems.length → inv acc →
      ∃ Δ, (iterateLoop fn (.ref r) fuel (.arrIter r i) s acc h t tr).trace = tr ++ Δ ∧
        (∀ j rec, Δ.get? j = some rec → rec.key = .num (Int.ofNat (i + j))) ∧
        chainFrom t Δ = true ∧
        (∀ v, (iterateLoop fn (.ref r) fuel (.arrIter r i) s acc h t tr).out = .resolved v →
          i + Δ.length = elems.length) := by
  intro fuel
  induction fuel with
  | zero =>
    intro elems i s acc h t tr _ _ _
    refine ⟨[], by simp [iterateLoop_zero], ?_, rfl, ?_⟩
    · intro j rec hj
      rw [List.get?_eq_none.2 (Nat.zero_le _)] at hj
      cases hj
    · intro v hv
      rw [iterateLoop_zero] at hv
      cases hv
  | succ n ih =>
    intro elems i s acc h t tr hh hi hacc
    rcases he : elems.get? i with _ | e
    · have hn : (iterNext h (IterState.arrIter r i)).2 = .done 0 := by
        simp only [iterNext, hh, he]
      rw [iterateLoop_done hn]
      refine ⟨[], by simp, ?_, rfl, ?_⟩
      · intro j rec hj
        rw [List.get?_eq_none.2 (Nat.zero_le _)] at hj
        cases hj
      · intro v _
        have hle := List.get?_eq_none.1 he
        simp only [List.length_nil]
        omega
    · have hilt : i < elems.length := by
        rcases List.get?_eq_some.1 he with ⟨hl, _⟩
        exact hl
      rcases hre : resolveVal e with ⟨de, se⟩
      rcases se with err | w
      · have hn : (iterNext h (IterState.arrIter r i)).2 = .rejectedNext de err := by
          simp only [iterNext, hh, he, hre]
        rw [iterateLoop_hung hn]
        refine ⟨[], by simp, ?_, rfl, ?_⟩
        · intro j rec hj
          rw [List.get?_eq_none.2 (Nat.zero_le _)] at hj
          cases hj
        · intro v hv
          cases hv
      · have hn : (iterNext h (IterState.arrIter r i)).2 =
            .pairRes de (.num (Int.ofNat i)) w := by
          simp only [iterNext, hh, he, hre]
        have hst : (iterNext h (IterState.arrIter r i)).1 = .arrIter r (i + 1) := by
          simp only [iterNext, hh, he, hre]
        rcases hf : (fn s acc w (.num (Int.ofNat i)) (.ref r) h).2.2 with e0 | rv
        · rw [iterateLoop_pair_throw hn hf]
          refine ⟨[⟨t + 1 + de, t + 1 + de, .num (Int.ofNat i), w, .error e0⟩],
            rfl, ?_, ?_, ?_⟩
          · intro j rec hj
            cases j with
            | zero =>
              cases hj
              simp
            | succ j2 =>
              rw [List.get?_eq_none.2 (by simp)] at hj
              cases hj
          · simp only [chainFrom, Bool.and_eq_true, decide_eq_true_eq]
            exact ⟨⟨by omega, by omega⟩, trivial⟩
          · intro v hv
            cases hv
        · rcases hr : resolveVal rv with ⟨d2, sres⟩
          rcases sres with e0 | w2
          · rw [iterateLoop_pair_rejres hn hf hr]
            refine ⟨[⟨t + 1 + de, t + 1 + de + d2, .num (Int.ofNat i), w, .error e0⟩],
              rfl, ?_, ?_, ?_⟩
            · intro j rec hj
              cases j with
              | zero =>
                cases hj
                simp
              | succ j2 =>
                rw [List.get?_eq_none.2 (by simp)] at hj
                cases hj
            · simp only [chainFrom, Bool.and_eq_true, decide_eq_true_eq]
              exact ⟨⟨by omega, by omega⟩, trivial⟩
            · intro v hv
              cases hv
          · rw [iterateLoop_pair_ok hn hf hr, hst]
            have hh2 : ((fn s acc w (.num (Int.ofNat i)) (.ref r) h).2.1).get? r =
                some (.arr elems) :=
              ((hstep s acc w (.num (Int.ofNat i)) h hacc).1).trans hh
            have hinv2 : inv w2 :=
              (hstep s acc w (.num (Int.ofNat i)) h hacc).2 rv d2 w2 hf hr
            rcases ih elems (i + 1) (fn s acc w (.num (Int.ofNat i)) (.ref r) h).1 w2
                (fn s acc w (.num (Int.ofNat i)) (.ref r) h).2.1 (t + 1 + de + d2)
                (tr ++ [⟨t + 1 + de, t + 1 + de + d2, .num (Int.ofNat i), w, .ok w2⟩])
                hh2 (by omega) hinv2 with ⟨Δ2, htr2, hkeys2, hchain2, hlen2⟩
            refine ⟨⟨t + 1 + de, t + 1 + de + d2, .num (Int.ofNat i), w, .ok w2⟩ :: Δ2,
              ?_, ?_, ?_, ?_⟩
            · rw [htr2]
              simp
            · intro j rec hj
              cases j with
              | zero =>
                cases hj
                simp
              | succ j2 =>
                have := hkeys2 j2 rec hj
                rw [this]
                have : i + 1 + j2 = i + (j2 + 1) := by omega
                rw [this]
            · simp only [chainFrom, Bool.and_eq_true, decide_eq_true_eq]
              exact ⟨⟨by omega, by omega⟩, hchain2⟩
            · intro v hv
              have := hlen2 v hv
              simp only [List.length_cons]
              omega

/-- Master lemma, plain-object sources: the keys snapshot drives the
iteration, so the new trace records carry the remaining property names in
order (as strings, provided no name is empty), each callback is invoked
strictly after the previous result settled, and a resolved run visited
every remaining name. -/
theorem iterateLoop_obj_order {σ : Type} (fn : StepFn σ) (r : Nat) (obj : JsValue) :
    ∀ (fuel : Nat) (keys : List String) (s : σ) (acc : JsValue) (h : Heap) (t : Nat)
      (tr : List CallRecord),
      (∀ k ∈ keys, k ≠ "") →
      ∃ Δ, (iterateLoop fn obj fuel (.objIter keys r) s acc h t tr).trace = tr ++ Δ ∧
        (∀ j rec, Δ.get? j = some rec → ∃ k, keys.get? j = some k ∧ rec.key = .str k) ∧
        chainFrom t Δ = true ∧
        (∀ v, (iterateLoop fn obj fuel (.objIter keys r) s acc h t tr).out = .resolved v →
          Δ.length = keys.length) := by
  intro fuel
  induction fuel with
  | zero =>
    intro keys s acc h t tr _
    refine ⟨[], by simp [iterateLoop_zero], ?_, rfl, ?_⟩
    · intro j rec hj
      rw [List.get?_eq_none.2 (Nat.zero_le _)] at hj
      cases hj
    · intro v hv
      rw [iterateLoop_zero] at hv
      cases hv
  | succ n ih =>
    intro keys s acc h t tr hkeys
    cases keys with
    | nil =>
      have hn : (iterNext h (IterState.objIter [] r)).2 = .done 0 := rfl
      rw [iterateLoop_done hn]
      refine ⟨[], by simp, ?_, rfl, ?_⟩
      · intro j rec hj
        rw [List.get?_eq_none.2 (Nat.zero_le _)] at hj
        cases hj
      · intro v _
        rfl
    | cons k rest =>
      have hk : k ≠ "" := hkeys k (List.mem_cons_self k rest)
      rcases hre : resolveVal (match h.get? r with
        | some (.objd props) => (props.lookup k).getD .undefined
        | _ => .undefined) with ⟨dv, sv⟩
      rcases sv with err | w
      · have hn : (iterNext h (IterState.objIter (k :: rest) r)).2 =
            .rejectedNext dv err := by
          simp only [iterNext, if_neg hk, hre]
        rw [iterateLoop_hung hn]
        refine ⟨[], by simp, ?_, rfl, ?_⟩
        · intro j rec hj
          rw [List.get?_eq_none.2 (Nat.zero_le _)] at hj
          cases hj
        · intro v hv
          cases hv
      · have hn : (iterNext h (IterState.objIter (k :: rest) r)).2 =
            .pairRes dv (.str k) w := by
          simp only [iterNext, if_neg hk, hre]
        have hst : (iterNext h (IterState.objIter (k :: rest) r)).1 =
            .objIter rest r := by
          simp only [iterNext, if_neg hk, hre]
        rcases hf : (fn s acc w (.str k) obj h).2.2 with e0 | rv
        · rw [iterateLoop_pair_throw hn hf]
          refine ⟨[⟨t + 1 + dv, t + 1 + dv, .str k, w, .error e0⟩], rfl, ?_, ?_, ?_⟩
          · intro j rec hj
            cases j with
            | zero =>
              cases hj
              exact ⟨k, rfl, rfl⟩
            | succ j2 =>
              rw [List.get?_eq_none.2 (by simp)] at hj
              cases hj
          · simp only [chainFrom, Bool.and_eq_true, decide_eq_true_eq]
            exact ⟨⟨by omega, by omega⟩, trivial⟩
          · intro v hv
            cases hv
        · rcases hr : resolveVal rv with ⟨d2, sres⟩
          rcases sres with e0 | w2
          · rw [iterateLoop_pair_rejres hn hf hr]
            refine ⟨[⟨t + 1 + dv, t + 1 + dv + d2, .str k, w, .error e0⟩], rfl, ?_, ?_, ?_⟩
            · intro j rec hj
              cases j with
              | zero =>
                cases hj
                exact ⟨k, rfl, rfl⟩
              | succ j2 =>
                rw [List.get?_eq_none.2 (by simp)] at hj
                cases hj
            · simp only [chainFrom, Bool.and_eq_true, decide_eq_true_eq]
              exact ⟨⟨by omega, by omega⟩, trivial⟩
            · intro v hv
              cases hv
          · rw [iterateLoop_pair_ok hn hf hr, hst]
            rcases ih rest (fn s acc w (.str k) obj h).1 w2
                (fn s acc w (.str k) obj h).2.1 (t + 1 + dv + d2)
                (tr ++ [⟨t + 1 + dv, t + 1 + dv + d2, .str k, w, .ok w2⟩])
                (fun k2 hk2 => hkeys k2 (List.mem_cons_of_mem k hk2))
              with ⟨Δ2, htr2, hkeys2, hchain2, hlen2⟩
            refine ⟨⟨t + 1 + dv, t + 1 + dv + d2, .str k, w, .ok w2⟩ :: Δ2,
              ?_, ?_, ?_, ?_⟩
            · rw [htr2]
              simp
            · intro j rec hj
              cases j with
              | zero =>
                cases hj
                exact ⟨k, rfl, rfl⟩
              | succ j2 =>
                exact hkeys2 j2 rec hj
            · simp only [chainFrom, Bool.and_eq_true, decide_eq_true_eq]
              exact ⟨⟨by omega, by omega⟩, hchain2⟩
            · intro v hv
              have := hlen2 v hv
              simp only [List.length_cons, this]

/-- C1 counterexample: for the attribute-keyed source `{"": 5}` (natural
key order `[""]`), `forEach` invokes its callback with key `undefined`,
not with the key `""`: in the adapter, `key.value ? this[key.value] :
undefined` and `result[0] ? [result[0], result[1]] : undefined` treat the
empty-string name as falsy, so the callback sees `(undefined, undefined)`
instead of the element's key (and value). -/
theorem c1_counterexample :
    traceKeysOf (forEach 5 [.objd [("", .num 5)]] (.ref 0)
      (fun (_ : Unit) v _ _ hp => ((), hp, .ok v)) ()) = [JsValue.undefined] ∧
    [JsValue.undefined] ≠ [JsValue.str ""] :=
  ⟨rfl, by decide⟩

/-- C1 (amended): for every collection source and every callback
(including callbacks whose results are deferred with arbitrary delays,
and deferred source values), provided the callback does not mutate the
source, processing is strictly sequential — each callback invocation
happens strictly after the previous invocation's result (deferred or not)
fully settled — and the keys passed to the callback follow the source's
natural enumeration order exactly: index order for ordered sequences, and
property-name order for attribute-keyed mappings whose names are
non-empty (an empty-string name is passed as `undefined`, see the
counterexample); a resolved run visited every element. -/
theorem c1_sequential_natural_order {σ : Type} (fuel : Nat) (h : Heap) (r : Nat)
    (ufn : UserFn3 σ) (s0 : σ) (hpres : Preserves3 ufn r) :
    (∀ elems out, h.get? r = some (.arr elems) →
      forEach fuel h (.ref r) ufn s0 = .ran out →
      (∀ j rec, out.trace.get? j = some rec → rec.key = .num (Int.ofNat j)) ∧
      chainFrom 0 out.trace = true ∧
      (∀ v, out.out = .resolved v → out.trace.length = elems.length)) ∧
    (∀ props out, h.get? r = some (.objd props) →
      (∀ p ∈ props, p.1 ≠ "") →
      forEach fuel h (.ref r) ufn s0 = .ran out →
      (∀ j rec, out.trace.get? j = some rec →
        ∃ p, props.get? j = some p ∧ rec.key = .str p.1) ∧
      chainFrom 0 out.trace = true ∧
      (∀ v, out.out = .resolved v → out.trace.length = props.length)) := by
  constructor
  · intro elems out hh hrun
    rw [forEach] at hrun
    have hout := iterate_ran hrun
    have hstart : asyncIteratorOf h (.ref r) = .arrIter r 0 := by
      simp only [asyncIteratorOf, hh]
    rw [hstart] at hout
    have hstep : ∀ (s : σ) acc v k hp, (fun (_ : JsValue) => True) acc →
        ((forEachStep ufn s acc v k (JsValue.ref r) hp).2.1).get? r = hp.get? r ∧
        (∀ rv d2 w, (forEachStep ufn s acc v k (JsValue.ref r) hp).2.2 = .ok rv →
          resolveVal rv = (d2, .ok w) → (fun (_ : JsValue) => True) w) :=
      fun s acc v k hp _ => ⟨hpres s v k (.ref r) hp, fun _ _ _ _ _ => trivial⟩
    rcases iterateLoop_arr_order (forEachStep ufn) r (fun _ => True) hstep fuel elems 0
      s0 .undefined h 0 [] hh (Nat.zero_le _) trivial with ⟨Δ, htr, hkeys, hchain, hlen⟩
    simp only [List.nil_append] at htr
    subst hout
    refine ⟨?_, ?_, ?_⟩
    · intro j rec hj
      rw [htr] at hj
      have := hkeys j rec hj
      rw [this]
      simp
    · rw [htr]
      exact hchain
    · intro v hv
      rw [htr]
      have := hlen v hv
      omega
  · intro props out hh hprops hrun
    rw [forEach] at hrun
    have hout := iterate_ran hrun
    have hstart : asyncIteratorOf h (.ref r) = .objIter (props.map Prod.fst) r := by
      simp only [asyncIteratorOf, hh]
    rw [hstart] at hout
    rcases iterateLoop_obj_order (forEachStep ufn) r (.ref r) fuel
      (props.map Prod.fst) s0 .undefined h 0 []
      (fun k hk => by
        rcases List.mem_map.1 hk with ⟨p, hp, rfl⟩
        exact hprops p hp) with ⟨Δ, htr, hkeys, hchain, hlen⟩
    simp only [List.nil_append] at htr
    subst hout
    refine ⟨?_, ?_, ?_⟩
    · intro j rec hj
      rw [htr] at hj
      rcases hkeys j rec hj with ⟨k, hk, hkey⟩
      rw [List.get?_map] at hk
      rcases Option.map_eq_some'.1 hk with ⟨p, hp, hpk⟩
      exact ⟨p, hp, by rw [hkey, hpk]⟩
    · rw [htr]
      exact hchain
    · intro v hv
      rw [htr]
      rw [hlen v hv]
      exact List.length_map _ _

def c1heap : Heap := [.arr [.num 1, .promiseRes 3 (.num 2)]]

/-- A callback returning a deferred result with a two-tick delay. -/
def c1fn : UserFn3 Unit := fun _ _ _ _ hp => ((), hp, .ok (.promiseRes 2 .undefined))

def c1out : RunOut := runOutOf (forEach 9 c1heap (.ref 0) c1fn ())

/-- C1 witness: over `[1, Promise.resolve-after-3(2)]` with a callback
whose results settle two ticks later, the keys are `0, 1` in order, each
invocation strictly follows the previous settlement, and both elements
were visited. -/
theorem c1_witness :
    (∀ j rec, c1out.trace.get? j = some rec → rec.key = .num (Int.ofNat j)) ∧
    chainFrom 0 c1out.trace = true ∧
    (∀ v, c1out.out = .resolved v → c1out.trace.length = 2) :=
  (c1_sequential_natural_order 9 c1heap 0 c1fn () (fun _ _ _ _ _ => rfl)).1
    [.num 1, .promiseRes 3 (.num 2)] c1out rfl rfl

/-! ## C8: map output sizing and contents -/

/-- A pure `(value, key)` user callback (no heap access, no closure
state, never throwing), as used by the spec's map examples. -/
def liftPure (pfn : JsValue → JsValue → JsValue) : UserFn3 Unit :=
  fun _ v k _ hp => ((), hp, .ok (pfn v k))

theorem setExtend_get?_lt (l : List JsValue) (i : Nat) (v : JsValue) (j : Nat)
    (hji : j < i) (hjl : j < l.length) :
    (setExtend l i v).get? j = l.get? j := by
  simp only [setExtend]
  by_cases hi : i < l.length
  · rw [if_pos hi]
    exact List.get?_set_ne _ _ (by omega)
  · rw [if_neg hi]
    rw [List.get?_append (by simp; omega), List.get?_append hjl]

theorem setExtend_get?_self (l : List JsValue) (i : Nat) (v : JsValue) :
    (setExtend l i v).get? i = some v := by
  simp only [setExtend]
  by_cases hi : i < l.length
  · rw [if_pos hi, List.get?_set_eq, List.get?_eq_get hi]
    rfl
  · rw [if_neg hi]
    have hlen : (l ++ List.replicate (i - l.length) JsValue.undefined).length = i := by
      simp
      omega
    have hcat := List.get?_concat_length
      (l ++ List.replicate (i - l.length) JsValue.undefined) v
    rw [hlen] at hcat
    exact hcat

theorem setExtend_length_lt (l : List JsValue) (i : Nat) (v : JsValue)
    (hi : i < l.length) : (setExtend l i v).length = l.length := by
  simp only [setExtend, if_pos hi, List.length_set]

theorem setExtend_length_ge (l : List JsValue) (i : Nat) (v : JsValue)
    (hi : l.length ≤ i) : (setExtend l i v).length = i + 1 := by
  have hni : ¬ i < l.length := by omega
  simp only [setExtend, if_neg hni]
  simp
  omega

theorem heapSetIdx_arr {h : Heap} {R : Nat} {buf : List JsValue}
    (hR : h.get? R = some (.arr buf)) (i : Nat) (v : JsValue) :
    heapSetIdx h (.ref R) i v = h.set R (.arr (setExtend buf i v)) := by
  simp only [heapSetIdx, hR]

theorem heap_get?_set_self (h : Heap) (R : Nat) (x d : ObjData)
    (hR : h.get? R = some d) : (h.set R x).get? R = some x := by
  rw [List.get?_set_eq, hR]
  rfl

/-- The `map` wrapper over a pure user callback whose result settles:
it writes the settled result at the closure's current index, increments
it, and its own settled result is the accumulator (the output array). -/
theorem mapStep_liftPure_char (pfn : JsValue → JsValue → JsValue)
    (j : Nat) (R : Nat) (v k o : JsValue) (hp : Heap)
    (hok : resolvesOk (pfn v k) = true) :
    ∃ rv d2, mapStep (liftPure pfn) ((), j) (.ref R) v k o hp =
      (((), j + 1), heapSetIdx hp (.ref R) j (resolveD (pfn v k)), .ok rv) ∧
      resolveVal rv = (d2, .ok (.ref R)) := by
  by_cases hpi : isPromiseVal (pfn v k) = true
  · rcases hri : resolveVal (pfn v k) with ⟨dd, sres⟩
    rcases sres with e | w
    · exfalso
      rw [resolvesOk, hri] at hok
      cases hok
    · refine ⟨.promiseRes dd (.ref R), dd + 0, ?_, rfl⟩
      have hexp : resolveD (pfn v k) = w := by
        rw [resolveD, hri]
      rw [hexp]
      simp only [mapStep, liftPure, hpi, hri]
      rfl
  · simp only [Bool.not_eq_true] at hpi
    refine ⟨.ref R, 0, ?_, rfl⟩
    have hexp : resolveD (pfn v k) = pfn v k := by
      rw [resolveD, resolveVal_nonpromise hpi]
    rw [hexp]
    simp only [mapStep, liftPure, hpi]
    rfl

/-- Master lemma, `map` over an array source with a pure callback whose
inputs all settle: the run resolves to the output array reference, whose
final contents keep the already-written prefix and hold, at each
remaining position, the settled callback result for that element. -/
theorem mapLoop_arr_content (pfn : JsValue → JsValue → JsValue) (r R : Nat)
    (hne : r ≠ R) :
    ∀ (fuel : Nat) (elems buf : List JsValue) (i : Nat) (h : Heap) (t : Nat)
      (tr : List CallRecord),
      h.get? r = some (.arr elems) →
      h.get? R = some (.arr buf) →
      i ≤ elems.length →
      buf.length = elems.length →
      (∀ e ∈ elems, resolvesOk e = true) →
      (∀ v k, resolvesOk (pfn v k) = true) →
      elems.length - i < fuel →
      ∃ bufF,
        (iterateLoop (mapStep (liftPure pfn)) (.ref r) fuel (.arrIter r i)
          ((), i) (.ref R) h t tr).out = .resolved (.ref R) ∧
        ((iterateLoop (mapStep (liftPure pfn)) (.ref r) fuel (.arrIter r i)
          ((), i) (.ref R) h t tr).heap).get? R = some (.arr bufF) ∧
        bufF.length = elems.length ∧
        (∀ j, j < i → bufF.get? j = buf.get? j) ∧
        (∀ j, i ≤ j → bufF.get? j =
          (elems.get? j).map
            (fun e => resolveD (pfn (resolveD e) (.num (Int.ofNat j))))) := by
  intro fuel
  induction fuel with
  | zero =>
    intro elems buf i h t tr _ _ _ _ _ _ hfuel
    exact absurd hfuel (by omega)
  | succ n ih =>
    intro elems buf i h t tr hr hR hi hbl hres hpok hfuel
    rcases he : elems.get? i with _ | e
    · have hieq : elems.length ≤ i := List.get?_eq_none.1 he
      have hn : (iterNext h (IterState.arrIter r i)).2 = .done 0 := by
        simp only [iterNext, hr, he]
      rw [iterateLoop_done hn]
      refine ⟨buf, rfl, hR, hbl, fun j _ => rfl, ?_⟩
      intro j hj
      have h1 : buf.get? j = none := List.get?_eq_none.2 (by omega)
      have h2 : elems.get? j = none := List.get?_eq_none.2 (by omega)
      rw [h1, h2]
      rfl
    · have hilt : i < elems.length := by
        rcases List.get?_eq_some.1 he with ⟨hl, _⟩
        exact hl
      have heok : resolvesOk e = true := hres e (List.get?_mem he)
      rcases hre : resolveVal e with ⟨de, se⟩
      rcases se with err | w
      · exfalso
        rw [resolvesOk, hre] at heok
        cases heok
      · have hwr : resolveD e = w := by rw [resolveD, hre]
        have hn : (iterNext h (IterState.arrIter r i)).2 =
            .pairRes de (.num (Int.ofNat i)) w := by
          simp only [iterNext, hr, he, hre]
        have hst : (iterNext h (IterState.arrIter r i)).1 = .arrIter r (i + 1) := by
          simp only [iterNext, hr, he, hre]
        rcases mapStep_liftPure_char pfn i R w (.num (Int.ofNat i)) (.ref r) h
          (hpok _ _) with ⟨rv, d2, hfeq, hrv⟩
        have hf : (mapStep (liftPure pfn) ((), i) (.ref R) w (.num (Int.ofNat i))
            (.ref r) h).2.2 = .ok rv := by rw [hfeq]
        rw [iterateLoop_pair_ok hn hf hrv, hst]
        have hp1 : (mapStep (liftPure pfn) ((), i) (.ref R) w (.num (Int.ofNat i))
            (.ref r) h).1 = ((), i + 1) := by rw [hfeq]
        have hp2 : (mapStep (liftPure pfn) ((), i) (.ref R) w (.num (Int.ofNat i))
            (.ref r) h).2.1 =
            h.set R (.arr (setExtend buf i (resolveD (pfn w (.num (Int.ofNat i)))))) := by
          rw [hfeq, heapSetIdx_arr hR]
        rw [hp1, hp2]
        have hblt : i < buf.length := by omega
        have hr2 : (h.set R (.arr (setExtend buf i
            (resolveD (pfn w (.num (Int.ofNat i))))))).get? r = some (.arr elems) := by
          rw [List.get?_set_ne _ _ (Ne.symm hne)]
          exact hr
        have hR2 : (h.set R (.arr (setExtend buf i
            (resolveD (pfn w (.num (Int.ofNat i))))))).get? R =
            some (.arr (setExtend buf i (resolveD (pfn w (.num (Int.ofNat i)))))) :=
          heap_get?_set_self _ _ _ _ hR
        have hbl2 : (setExtend buf i (resolveD (pfn w (.num (Int.ofNat i))))).length =
            elems.length := by
          rw [setExtend_length_lt _ _ _ hblt]
          exact hbl
        rcases ih elems (setExtend buf i (resolveD (pfn w (.num (Int.ofNat i)))))
            (i + 1) _ _ _ hr2 hR2 (by omega) hbl2 hres hpok (by omega)
          with ⟨bufF, hout, hheap, hlen, hpre, hpost⟩
        refine ⟨bufF, hout, hheap, hlen, ?_, ?_⟩
        · intro j hj
          rw [hpre j (by omega)]
          exact setExtend_get?_lt _ _ _ _ (by omega) (by omega)
        · intro j hj
          rcases Nat.eq_or_lt_of_le hj with hje | hjlt
          · rw [← hje]
            rw [hpre i (by omega), setExtend_get?_self, he]
            simp only [Option.map_some']
            rw [hwr]
          · exact hpost j (by omega)

/-- Master lemma, `map` over a plain-object source with a pure callback:
the run resolves to the output array reference; the remaining keys'
settled callback results are appended at consecutive positions starting
at the current write index. -/
theorem mapLoop_obj_content (pfn : JsValue → JsValue → JsValue) (r R : Nat)
    (hne : r ≠ R) (props : List (String × JsValue)) :
    ∀ (fuel : Nat) (keys : List String) (j : Nat) (buf : List JsValue)
      (h : Heap) (t : Nat) (tr : List CallRecord),
      h.get? r = some (.objd props) →
      h.get? R = some (.arr buf) →
      (∀ k ∈ keys, k ≠ "") →
      (∀ k ∈ keys, resolvesOk ((props.lookup k).getD .undefined) = true) →
      (∀ v k, resolvesOk (pfn v k) = true) →
      (buf.length = j ∨ (j = 0 ∧ buf.length = 1)) →
      keys.length < fuel →
      ∃ bufF,
        (iterateLoop (mapStep (liftPure pfn)) (.ref r) fuel (.objIter keys r)
          ((), j) (.ref R) h t tr).out = .resolved (.ref R) ∧
        ((iterateLoop (mapStep (liftPure pfn)) (.ref r) fuel (.objIter keys r)
          ((), j) (.ref R) h t tr).heap).get? R = some (.arr bufF) ∧
        (∀ jj, jj < j → jj < buf.length → bufF.get? jj = buf.get? jj) ∧
        (∀ idx k, keys.get? idx = some k → bufF.get? (j + idx) =
          some (resolveD (pfn (resolveD ((props.lookup k).getD .undefined)) (.str k)))) ∧
        (keys = [] → bufF = buf) ∧
        (keys ≠ [] → bufF.length = j + keys.length) := by
  intro fuel
  induction fuel with
  | zero =>
    intro keys j buf h t tr _ _ _ _ _ _ hfuel
    exact absurd hfuel (by omega)
  | succ n ih =>
    intro keys j buf h t tr hr hR hkeys hvals hpok hbl hfuel
    cases keys with
    | nil =>
      have hn : (iterNext h (IterState.objIter [] r)).2 = .done 0 := rfl
      rw [iterateLoop_done hn]
      refine ⟨buf, rfl, hR, fun jj _ _ => rfl, ?_, fun _ => rfl, ?_⟩
      · intro idx k hk
        rw [List.get?_eq_none.2 (Nat.zero_le _)] at hk
        cases hk
      · intro habs
        exact absurd rfl habs
    | cons k rest =>
      have hk : k ≠ "" := hkeys k (List.mem_cons_self k rest)
      have hvok : resolvesOk ((props.lookup k).getD .undefined) = true :=
        hvals k (List.mem_cons_self k rest)
      rcases hre : resolveVal ((props.lookup k).getD .undefined) with ⟨dv, sv⟩
      rcases sv with err | w
      · exfalso
        rw [resolvesOk, hre] at hvok
        cases hvok
      · have hwr : resolveD ((props.lookup k).getD .undefined) = w := by
          rw [resolveD, hre]
        have hn : (iterNext h (IterState.objIter (k :: rest) r)).2 =
            .pairRes dv (.str k) w := by
          simp only [iterNext, if_neg hk, hr, hre]
        have hst : (iterNext h (IterState.objIter (k :: rest) r)).1 =
            .objIter rest r := by
          simp only [iterNext, if_neg hk, hr, hre]
        rcases mapStep_liftPure_char pfn j R w (.str k) (.ref r) h
          (hpok _ _) with ⟨rv, d2, hfeq, hrv⟩
        have hf : (mapStep (liftPure pfn) ((), j) (.ref R) w (.str k)
            (.ref r) h).2.2 = .ok rv := by rw [hfeq]
        rw [iterateLoop_pair_ok hn hf hrv, hst]
        have hp1 : (mapStep (liftPure pfn) ((), j) (.ref R) w (.str k)
            (.ref r) h).1 = ((), j + 1) := by rw [hfeq]
        have hp2 : (mapStep (liftPure pfn) ((), j) (.ref R) w (.str k)
            (.ref r) h).2.1 =
            h.set R (.arr (setExtend buf j (resolveD (pfn w (.str k))))) := by
          rw [hfeq, heapSetIdx_arr hR]
        rw [hp1, hp2]
        have hbl2 : (setExtend buf j (resolveD (pfn w (.str k)))).length = j + 1 := by
          rcases hbl with hbl | ⟨hj0, hb1⟩
        -- buffer length is the write index, or we are at the first write
        -- into the one-slot `new Array(undefined)` buffer
          · rw [setExtend_length_ge _ _ _ (by omega)]
          · subst hj0
            rw [setExtend_length_lt _ _ _ (by omega), hb1]
        have hr2 : (h.set R (.arr (setExtend buf j (resolveD (pfn w (.str k)))))).get? r =
            some (.objd props) := by
          rw [List.get?_set_ne _ _ (Ne.symm hne)]
          exact hr
        have hR2 : (h.set R (.arr (setExtend buf j (resolveD (pfn w (.str k)))))).get? R =
            some (.arr (setExtend buf j (resolveD (pfn w (.str k))))) :=
          heap_get?_set_self _ _ _ _ hR
        rcases ih rest (j + 1) (setExtend buf j (resolveD (pfn w (.str k)))) _ _ _
            hr2 hR2 (fun k2 hk2 => hkeys k2 (List.mem_cons_of_mem k hk2))
            (fun k2 hk2 => hvals k2 (List.mem_cons_of_mem k hk2)) hpok
            (Or.inl hbl2) (by simp at hfuel ⊢; omega)
          with ⟨bufF, hout, hheap, hpre, hpost, hnil, hlen⟩
        have hself : bufF.get? j = some (resolveD (pfn w (.str k))) := by
          rw [hpre j (by omega) (by omega), setExtend_get?_self]
        refine ⟨bufF, hout, hheap, ?_, ?_, ?_, ?_⟩
        · intro jj hjj hjb
          rw [hpre jj (by omega) (by omega)]
          exact setExtend_get?_lt _ _ _ _ (by omega) hjb
        · intro idx k2 hk2
          cases idx with
          | zero =>
            cases hk2
            rw [Nat.add_zero, hself, hwr]
          | succ idx2 =>
            have := hpost idx2 k2 hk2
            have harith : j + (idx2 + 1) = (j + 1) + idx2 := by omega
            rw [harith]
            exact this
        · intro habs
          cases habs
        · intro _
          cases rest with
          | nil =>
            rw [hnil rfl, hbl2]
            simp
          | cons k3 rest3 =>
            rw [hlen (by simp)]
            simp
            omega

/-- C8 counterexample: `map`'s output is not always an n-length sequence
for an n-element source, because the output buffer is pre-sized from
`obj.length` (`new Array(obj.length)`): an empty attribute-keyed mapping
(`length` is `undefined`, `new Array(undefined)` is `[undefined]`) yields
a 1-element output; a mapping owning a `length` attribute pre-sizes the
buffer from it (here 3 slots for 2 attributes); a string scalar pre-sizes
from its character count (2 slots for 1 visit). -/
theorem c8_counterexample :
    (finalArrOf (map 5 [.objd []] (.ref 0)
      (fun (_ : Unit) v _ _ hp => ((), hp, .ok v)) ())).map List.length = some 1 ∧
    some (1 : Nat) ≠ some 0 ∧
    (finalArrOf (map 9 [.objd [("length", .num 3), ("a", .num 1)]] (.ref 0)
      (fun (_ : Unit) v _ _ hp => ((), hp, .ok v)) ())).map List.length = some 3 ∧
    some (3 : Nat) ≠ some 2 ∧
    (finalArrOf (map 5 [] (.str "ab")
      (fun (_ : Unit) v _ _ hp => ((), hp, .ok v)) ())).map List.length = some 2 ∧
    some (2 : Nat) ≠ some 1 :=
  ⟨rfl, by decide, rfl, by decide, rfl, by decide⟩

/-- C8 (amended): with pure callbacks whose results (and all deferred
source values) settle, `map` resolves to a dense, order-preserving output
sequence whose position `i` holds the settled callback result of the
`i`-th element visited, of exactly the source's element count — for every
ordered-sequence source (any length, including 0), for every
attribute-keyed mapping with at least one attribute, no empty-string
attribute name and no own `length` attribute, and for every non-string
scalar other than `null`/`undefined` (one element); empty mappings,
`length`-owning mappings and string scalars mis-size the output (see the
counterexample). -/
theorem c8_map_dense_output :
    (∀ (fuel : Nat) (h : Heap) (r : Nat) (elems : List JsValue)
      (pfn : JsValue → JsValue → JsValue),
      h.get? r = some (.arr elems) →
      (∀ e ∈ elems, resolvesOk e = true) →
      (∀ v k, resolvesOk (pfn v k) = true) →
      elems.length + 1 ≤ fuel →
      ∃ out bufF, map fuel h (.ref r) (liftPure pfn) () = .ran out ∧
        out.out = .resolved (.ref h.length) ∧
        out.heap.get? h.length = some (.arr bufF) ∧
        bufF.length = elems.length ∧
        (∀ j, bufF.get? j = (elems.get? j).map
          (fun e => resolveD (pfn (resolveD e) (.num (Int.ofNat j)))))) ∧
    (∀ (fuel : Nat) (h : Heap) (r : Nat) (props : List (String × JsValue))
      (pfn : JsValue → JsValue → JsValue),
      h.get? r = some (.objd props) →
      props ≠ [] →
      props.lookup "length" = none →
      (∀ p ∈ props, p.1 ≠ "") →
      (∀ k ∈ props.map Prod.fst, resolvesOk ((props.lookup k).getD .undefined) = true) →
      (∀ v k, resolvesOk (pfn v k) = true) →
      props.length + 1 ≤ fuel →
      ∃ out bufF, map fuel h (.ref r) (liftPure pfn) () = .ran out ∧
        out.out = .resolved (.ref h.length) ∧
        out.heap.get? h.length = some (.arr bufF) ∧
        bufF.length = props.length ∧
        (∀ idx p, props.get? idx = some p → bufF.get? idx =
          some (resolveD (pfn (resolveD ((props.lookup p.1).getD .undefined))
            (.str p.1))))) ∧
    (∀ (fuel : Nat) (h : Heap) (sv : JsValue)
      (pfn : JsValue → JsValue → JsValue),
      isScalarVal sv = true →
      (∀ s, sv ≠ .str s) →
      resolvesOk (pfn sv .undefined) = true →
      2 ≤ fuel →
      ∃ out, map fuel h sv (liftPure pfn) () = .ran out ∧
        out.out = .resolved (.ref h.length) ∧
        out.heap.get? h.length = some (.arr [resolveD (pfn sv .undefined)])) := by
  refine ⟨?_, ?_, ?_⟩
  · intro fuel h r elems pfn hh hres hpok hfuel
    have hrlt : r < h.length := by
      rcases List.get?_eq_some.1 hh with ⟨hl, _⟩
      exact hl
    have h1eq : arrayNew (jsLengthOf h (.ref r)) =
        .ok (List.replicate elems.length .undefined) := by
      simp only [jsLengthOf, hh, arrayNew]
      have hcond : 0 ≤ Int.ofNat elems.length := Int.ofNat_nonneg _
      rw [if_pos hcond]
      simp
    have hrun : map fuel h (.ref r) (liftPure pfn) () =
        iterate fuel (h ++ [ObjData.arr (List.replicate elems.length .undefined)]) (.ref r)
          (mapStep (liftPure pfn)) ((), 0) (.ref h.length) := by
      show (match arrayNew (jsLengthOf h (.ref r)) with
        | .error e => IterResult.thrown e
        | .ok init => iterate fuel (h ++ [ObjData.arr init]) (.ref r)
            (mapStep (liftPure pfn)) ((), 0) (.ref h.length)) = _
      rw [h1eq]
    have hr1 : (h ++ [ObjData.arr (List.replicate elems.length .undefined)]).get? r =
        some (.arr elems) := by
      rw [List.get?_append hrlt]
      exact hh
    have hR1 : (h ++ [ObjData.arr (List.replicate elems.length .undefined)]).get? h.length =
        some (.arr (List.replicate elems.length .undefined)) :=
      List.get?_concat_length _ _
    have hstart : asyncIteratorOf (h ++ [ObjData.arr (List.replicate elems.length .undefined)])
        (.ref r) = .arrIter r 0 := by
      simp only [asyncIteratorOf, hr1]
    rcases mapLoop_arr_content pfn r h.length (by omega) fuel elems
        (List.replicate elems.length .undefined) 0
        (h ++ [ObjData.arr (List.replicate elems.length .undefined)]) 0 []
        hr1 hR1 (Nat.zero_le _) (List.length_replicate _ _) hres hpok (by omega)
      with ⟨bufF, hout, hheap, hlen, _, hpost⟩
    refine ⟨_, bufF, ?_, hout, hheap, hlen, fun j => hpost j (Nat.zero_le _)⟩
    rw [hrun]
    show IterResult.ran _ = _
    rw [hstart]
  · intro fuel h r props pfn hh hne hlook hnoempty hvals hpok hfuel
    have hrlt : r < h.length := by
      rcases List.get?_eq_some.1 hh with ⟨hl, _⟩
      exact hl
    have h1eq : arrayNew (jsLengthOf h (.ref r)) = .ok [.undefined] := by
      simp only [jsLengthOf, hh, hlook]
      rfl
    have hrun : map fuel h (.ref r) (liftPure pfn) () =
        iterate fuel (h ++ [ObjData.arr [.undefined]]) (.ref r)
          (mapStep (liftPure pfn)) ((), 0) (.ref h.length) := by
      show (match arrayNew (jsLengthOf h (.ref r)) with
        | .error e => IterResult.thrown e
        | .ok init => iterate fuel (h ++ [ObjData.arr init]) (.ref r)
            (mapStep (liftPure pfn)) ((), 0) (.ref h.length)) = _
      rw [h1eq]
    have hr1 : (h ++ [ObjData.arr [.undefined]]).get? r = some (.objd props) := by
      rw [List.get?_append hrlt]
      exact hh
    have hR1 : (h ++ [ObjData.arr [.undefined]]).get? h.length = some (.arr [.undefined]) :=
      List.get?_concat_length _ _
    have hstart : asyncIteratorOf (h ++ [ObjData.arr [.undefined]]) (.ref r) =
        .objIter (props.map Prod.fst) r := by
      simp only [asyncIteratorOf, hr1]
    rcases mapLoop_obj_content pfn r h.length (by omega) props fuel
        (props.map Prod.fst) 0 [.undefined] (h ++ [ObjData.arr [.undefined]]) 0 []
        hr1 hR1
        (fun k hk => by
          rcases List.mem_map.1 hk with ⟨p, hp, rfl⟩
          exact hnoempty p hp)
        hvals hpok (Or.inr ⟨rfl, rfl⟩) (by simp; omega)
      with ⟨bufF, hout, hheap, _, hpost, _, hlen⟩
    have hkeysne : props.map Prod.fst ≠ [] := by
      cases props with
      | nil => exact absurd rfl hne
      | cons p ps => simp
    refine ⟨_, bufF, ?_, hout, hheap, ?_, ?_⟩
    · rw [hrun]
      show IterResult.ran _ = _
      rw [hstart]
    · rw [hlen hkeysne]
      simp
    · intro idx p hp
      have hkey : (props.map Prod.fst).get? idx = some p.1 := by
        rw [List.get?_map, hp]
        rfl
      have := hpost idx p.1 hkey
      rw [Nat.zero_add] at this
      exact this
  · intro fuel h sv pfn hs hns hpok hfuel
    obtain ⟨n, rfl⟩ : ∃ n, fuel = n + 2 := by
      rcases Nat.exists_eq_add_of_le hfuel with ⟨n, hn⟩
      exact ⟨n, by omega⟩
    have hrun : map (n + 2) h sv (liftPure pfn) () =
        iterate (n + 2) (h ++ [ObjData.arr [.undefined]]) sv
          (mapStep (liftPure pfn)) ((), 0) (.ref h.length) := by
      cases sv <;> first
        | rfl
        | (exact absurd rfl (hns _))
        | (exact absurd hs (by simp [isScalarVal]))
    have hran : iterate (n + 2) (h ++ [ObjData.arr [.undefined]]) sv
        (mapStep (liftPure pfn)) ((), 0) (.ref h.length) =
        .ran (iterateLoop (mapStep (liftPure pfn)) sv (n + 2) (.singleIter sv false)
          ((), 0) (.ref h.length) (h ++ [ObjData.arr [.undefined]]) 0 []) := by
      cases sv <;> first
        | rfl
        | (exact absurd hs (by simp [isScalarVal]))
    have hR1 : (h ++ [ObjData.arr [.undefined]]).get? h.length = some (.arr [.undefined]) :=
      List.get?_concat_length _ _
    have hn1 : (iterNext (h ++ [ObjData.arr [.undefined]]) (IterState.singleIter sv false)).2 =
        .pairRes 0 .undefined sv := rfl
    rcases mapStep_liftPure_char pfn 0 h.length sv .undefined sv (h ++ [ObjData.arr [.undefined]])
      hpok with ⟨rv, d2, hfeq, hrv⟩
    have hf : (mapStep (liftPure pfn) ((), 0) (.ref h.length) sv .undefined sv
        (h ++ [ObjData.arr [.undefined]])).2.2 = .ok rv := by rw [hfeq]
    have hp2 : (mapStep (liftPure pfn) ((), 0) (.ref h.length) sv .undefined sv
        (h ++ [ObjData.arr [.undefined]])).2.1 =
        (h ++ [ObjData.arr [.undefined]]).set h.length (.arr [resolveD (pfn sv .undefined)]) := by
      rw [hfeq, heapSetIdx_arr hR1]
      rfl
    refine ⟨_, by rw [hrun, hran], ?_, ?_⟩
    · rw [iterateLoop_pair_ok hn1 hf hrv]
      have hn2 : (iterNext (mapStep (liftPure pfn) ((), 0) (.ref h.length) sv .undefined sv
          (h ++ [ObjData.arr [.undefined]])).2.1
          (iterNext (h ++ [ObjData.arr [.undefined]]) (IterState.singleIter sv false)).1).2 =
          .done 0 := rfl
      rw [iterateLoop_done hn2]
    · rw [iterateLoop_pair_ok hn1 hf hrv]
      have hn2 : (iterNext (mapStep (liftPure pfn) ((), 0) (.ref h.length) sv .undefined sv
          (h ++ [ObjData.arr [.undefined]])).2.1
          (iterNext (h ++ [ObjData.arr [.undefined]]) (IterState.singleIter sv false)).1).2 =
          .done 0 := rfl
      rw [iterateLoop_done hn2]
      show ((mapStep (liftPure pfn) ((), 0) (.ref h.length) sv .undefined sv
        (h ++ [ObjData.arr [.undefined]])).2.1).get? h.length = _
      rw [hp2]
      exact heap_get?_set_self _ _ _ _ hR1

def c8heap : Heap := [ObjData.arr [.promiseRes 1 (.num 1), .num 2]]

/-- C8 witness: the amended array clause applied to
`map([Promise.resolve(1), 2], () => delayedPromise(7))`: a dense
two-element output holding the settled results in order. -/
theorem c8_witness :
    ∃ out bufF, map 9 c8heap (.ref 0)
        (liftPure (fun _ _ => .promiseRes 1 (.num 7))) () = .ran out ∧
      out.out = .resolved (.ref c8heap.length) ∧
      out.heap.get? c8heap.length = some (.arr bufF) ∧
      bufF.length = ([.promiseRes 1 (.num 1), .num 2] : List JsValue).length ∧
      (∀ j, bufF.get? j =
        (([.promiseRes 1 (.num 1), .num 2] : List JsValue).get? j).map
          (fun e => resolveD ((fun _ _ => JsValue.promiseRes 1 (JsValue.num 7))
            (resolveD e) (JsValue.num (Int.ofNat j))))) :=
  c8_map_dense_output.1 9 c8heap 0 [.promiseRes 1 (.num 1), .num 2]
    (fun _ _ => .promiseRes 1 (.num 7)) rfl (by decide) (fun _ _ => rfl) (by decide)

end AsyncIterators
